import Mathlib

/-!
Verification of the erfserver in-memory lineage-graph engine.

The Go source (server.go, stringutils.go) is embedded shallowly:

* `record` mirrors the `record` struct (times as UTC epoch seconds, `Int`).
* Go's `map[string]*stringSet` is modelled as an association list
  `List (String × Option (List String))`: a key bound to `none` is a key
  whose stored pointer is `nil` ("registered, no edge set"), an absent key
  does not occur at all.  Go map iteration order is unspecified; the
  association list fixes it to key first-insertion order, which is the one
  determinization every theorem below is stated against.
* `stringSet` (insertion-ordered set of strings) is a `List String`
  together with `setAdd`.
* The canonical-ID resolver's worklist loop (`mapCanonicalIDs` in
  server.go) is embedded as an explicitly fuelled tail recursion
  `canonLoop`; the Go loop has no fuel and diverges on graphs with a cycle
  reachable from a root, so every terminating run of the Go loop is
  reproduced by `canonLoop` once the fuel dominates the step count, and
  `canonFuel` below is a crude upper bound for all acyclic graphs.
* `erf.ParseToken` lives in a different repository (an external
  collaborator per the package docs); `Append` therefore takes the
  outcome of claims extraction as an `Except` argument.
-/

/-- Mirror of the Go `record` struct. -/
structure record where
  subject : String
  previous : String
  operation : String
  utcTime : Int
deriving DecidableEq, Repr

/-- `stringSet.add`: append a value unless already present
(insertion-order-preserving set). -/
def setAdd (s : List String) (v : String) : List String :=
  if v ∈ s then s else s ++ [v]

/-- Association-list lookup, modelling Go map indexing (`none` = key absent). -/
def alFind {α : Type} : List (String × α) → String → Option α
  | [], _ => none
  | (k', v) :: rest, k => if k' = k then some v else alFind rest k

/-- Association-list update: overwrite in place if the key is present,
append otherwise (Go map assignment, determinized to insertion order). -/
def alSet {α : Type} : List (String × α) → String → α → List (String × α)
  | [], k, v => [(k, v)]
  | (k', v') :: rest, k, v =>
    if k' = k then (k, v) :: rest else (k', v') :: alSet rest k v

/-- `m[k] = m[k]` on a Go map: a no-op when the key is present, otherwise it
materializes the key bound to the `nil` pointer. -/
def alRegister (m : List (String × Option (List String))) (k : String) :
    List (String × Option (List String)) :=
  match alFind m k with
  | some _ => m
  | none => m ++ [(k, none)]

/-- The keys of an association list. -/
def alKeys {α : Type} (m : List (String × α)) : List String :=
  m.map (·.1)

/-- Mirror of `adjacencyListPair`. -/
structure adjacencyListPair where
  incoming : List (String × Option (List String))
  outgoing : List (String × Option (List String))
deriving DecidableEq, Repr

/-- The outgoing children of a node, in first-insertion order
(`lists.outgoing[*n].values()`, with the surrounding nil check). -/
def childList (out : List (String × Option (List String))) (n : String) : List String :=
  match alFind out n with
  | some (some s) => s
  | _ => []

/-- The incoming edge list of a node (empty for absent or nil entries). -/
def incList (inc : List (String × Option (List String))) (n : String) : List String :=
  match alFind inc n with
  | some (some s) => s
  | _ => []

/-- One iteration of the record loop in `adjacencyLists` (the body guarded by
the `since` filter). -/
def adjStep (res : adjacencyListPair) (r : record) : adjacencyListPair :=
  let sub := r.subject
  let pre := r.previous
  let inc1 := alRegister res.incoming sub
  let out1 := alRegister res.outgoing sub
  if pre = "" then
    ⟨inc1, out1⟩
  else
    let out2 := alSet out1 pre (some (setAdd (childList out1 pre) sub))
    let inc2 := alSet inc1 sub (some (setAdd (incList inc1 sub) pre))
    let inc3 := alRegister inc2 pre
    ⟨inc3, out2⟩

/-- Mirror of `inMemoryERFServer.adjacencyLists`: fold the record log,
skipping records strictly before `since` when a filter is supplied. -/
def adjacencyLists (since : Option Int) (records : List record) : adjacencyListPair :=
  records.foldl
    (fun res r =>
      match since with
      | some s => if r.utcTime < s then res else adjStep res r
      | none => adjStep res r)
    ⟨[], []⟩

/-- Mirror of `countSinks`: count keys of the outgoing map bound to `nil`. -/
def countSinks (outgoingAdjacencyList : List (String × Option (List String))) : Nat :=
  outgoingAdjacencyList.countP (fun p => p.2.isNone)

/-- Mirror of `TotalClients`. -/
def TotalClients (records : List record) : Nat :=
  countSinks (adjacencyLists none records).outgoing

/-- Mirror of `RecentClients` (the `since` argument already as epoch seconds). -/
def RecentClients (since : Int) (records : List record) : Nat :=
  countSinks (adjacencyLists (some since) records).outgoing

/-- The worklist loop inside `mapCanonicalIDs`.  `n` is the node the loop
head just popped, `nodes`/`ids` are the two stacks (head = top; the Go
invariant `ids.length = nodes.length + 1` holds at the loop head, the id
for `n` riding on top of `ids`).  Children are pushed in insertion order,
pairing the first child with the parent's id and every later child with
its own fingerprint, exactly as in the Go loop body.  `fuel` bounds the
iteration count; the Go loop diverges where the fuel would run out. -/
def canonLoop (out : List (String × Option (List String))) :
    Nat → String → List String → List String → List (String × String) →
    List (String × String)
  | 0, _, _, _, result => result
  | fuel + 1, n, nodes, ids, result =>
    match ids with
    | [] => result
    | id :: ids' =>
      let result' := alSet result n id
      let cs := childList out n
      let nodes' := cs.reverse ++ nodes
      let ids'' :=
        match cs with
        | [] => ids'
        | _ :: csRest => csRest.reverse ++ id :: ids'
      match nodes' with
      | [] => result'
      | n' :: rest => canonLoop out fuel n' rest ids'' result'

/-- Fuel that dominates the worklist's step count on every acyclic graph:
the step count is at most `(maxOutDegree + 1) ^ (numKeys + 1)`, and both
quantities are at most the total size `T` of the outgoing map. -/
def canonFuel (out : List (String × Option (List String))) : Nat :=
  let T := out.foldl
    (fun a p => a + 1 + (match p.2 with | some s => s.length | none => 0)) 0
  (T + 2) ^ (T + 2)

/-- One iteration of the root loop of `mapCanonicalIDs`: a key of the
incoming view bound to `nil` is a root and seeds a worklist run, any other
entry is skipped. -/
def canonStep (out : List (String × Option (List String))) (F : Nat)
    (result : List (String × String)) (p : String × Option (List String)) :
    List (String × String) :=
  match p.2 with
  | none => canonLoop out F p.1 [] [p.1] result
  | some _ => result

/-- Mirror of `mapCanonicalIDs`: for every root of the incoming view (a key
bound to `nil`), run the worklist seeded with the root's own fingerprint.
Root iteration order is the determinized key insertion order. -/
def mapCanonicalIDs (lists : adjacencyListPair) : List (String × String) :=
  lists.incoming.foldl (canonStep lists.outgoing (canonFuel lists.outgoing)) []

/-- `result[clientID][operation]++` on the nested Go maps. -/
def bumpOp (ops : List (String × Nat)) (op : String) : List (String × Nat) :=
  match alFind ops op with
  | none => ops ++ [(op, 1)]
  | some n => alSet ops op (n + 1)

/-- One iteration of the record loop in `OperationsByClient`; `cids` is the
canonical-ID map and missing subjects resolve to the Go zero value `""`. -/
def opStep (cids : List (String × String)) (result : List (String × List (String × Nat)))
    (r : record) : List (String × List (String × Nat)) :=
  let clientID := (alFind cids r.subject).getD ""
  match alFind result clientID with
  | none => result ++ [(clientID, [(r.operation, 1)])]
  | some clientOperations => alSet result clientID (bumpOp clientOperations r.operation)

/-- Mirror of `OperationsByClient`. -/
def OperationsByClient (records : List record) :
    List (String × List (String × Nat)) :=
  let lists := adjacencyLists none records
  let canonicalIDs := mapCanonicalIDs lists
  records.foldl (opStep canonicalIDs) []

/-- The wrapped error message produced by `errors.Wrap(err, "failed to read token")`. -/
def wrapMsg (cause : String) : String :=
  "failed to read token: " ++ cause

/-- Mirror of `Append`.  Claims extraction (`erf.ParseToken`, an external
collaborator from another repository) is passed in as its outcome: either a
parse error or the extracted `(subject, previous)` pair.  On failure the
store is untouched and the cause is wrapped; on success exactly one record
is appended. -/
def ERF.Append (records : List record) (parsed : Except String (String × String))
    (operation : String) (utcTime : Int) : Except String (List record) :=
  match parsed with
  | .error e => .error (wrapMsg e)
  | .ok (sub, pre) => .ok (records ++ [⟨sub, pre, operation, utcTime⟩])

/-- The record log after an `Append` call: unchanged on error, the returned
log on success. -/
def recordsAfter (records : List record) (res : Except String (List record)) :
    List record :=
  match res with
  | .error _ => records
  | .ok rs => rs

/-! ### Specification-level views of the graph construction

The following executable functions restate, in terms of the record
sequence, what `adjacencyLists` stores at each key.  They are proved to
coincide with the fold in `adj_char_out` / `adj_char_inc` and are the main
interface the claim proofs use. -/

/-- `f` occurs as the subject of some record. -/
def isSubjectOf (rs : List record) (f : String) : Bool :=
  rs.any (fun r => r.subject == f)

/-- `f` occurs as the (non-empty) previous fingerprint of some record. -/
def isPrevOf (rs : List record) (f : String) : Bool :=
  rs.any (fun r => r.previous == f && !(r.previous == ""))

/-- Some record has subject `f` and a non-empty previous fingerprint. -/
def hasPrevRecord (rs : List record) (f : String) : Bool :=
  rs.any (fun r => r.subject == f && !(r.previous == ""))

/-- Subjects of the records whose previous fingerprint is `f`, in log order. -/
def childSubjects (rs : List record) (f : String) : List String :=
  (rs.filter (fun r => r.previous == f)).map (·.subject)

/-- Non-empty previous fingerprints of the records whose subject is `f`. -/
def prevsOf (rs : List record) (f : String) : List String :=
  (rs.filter (fun r => r.subject == f && !(r.previous == ""))).map (·.previous)

/-- Deduplication keeping first occurrences (the order a `stringSet` ends
up with after adding a list of values one by one). -/
def firstDedup (l : List String) : List String :=
  l.foldl setAdd []

/-- What `adjacencyLists` stores in the outgoing map at key `f`. -/
def specOut (rs : List record) (f : String) : Option (Option (List String)) :=
  if isSubjectOf rs f || isPrevOf rs f then
    some (if isPrevOf rs f then some (firstDedup (childSubjects rs f)) else none)
  else none

/-- What `adjacencyLists` stores in the incoming map at key `f`. -/
def specInc (rs : List record) (f : String) : Option (Option (List String)) :=
  if isSubjectOf rs f || isPrevOf rs f then
    some (if hasPrevRecord rs f then some (firstDedup (prevsOf rs f)) else none)
  else none

/-- Every fingerprint appearing in the sequence, either as a subject or as a
non-empty previous reference (the data model reads an empty `previous` as
"no previous fingerprint"). -/
def allFingerprints (rs : List record) : List String :=
  rs.map (·.subject) ++ (rs.map (·.previous)).filter (fun p => !(p == ""))

/-- `f` is never referenced as the (non-empty) previous field of any record. -/
def neverPrevious (rs : List record) (f : String) : Bool :=
  rs.all (fun r => !(r.previous == f) || r.previous == "")

/-- The count described by the spec: distinct fingerprints appearing in the
sequence that are never referenced as a previous fingerprint. -/
def claimTotalClients (rs : List record) : Nat :=
  ((allFingerprints rs).dedup.filter (fun f => neverPrevious rs f)).length

/-- Total operation count stored in one per-client map. -/
def sumCounts (ops : List (String × Nat)) : Nat :=
  (ops.map (·.2)).sum

/-- Total operation count recorded for client `c` in an aggregation result
(zero when `c` is absent). -/
def totalFor (m : List (String × List (String × Nat))) (c : String) : Nat :=
  match alFind m c with
  | none => 0
  | some ops => sumCounts ops

/-- Resolution of a subject through the canonical-ID map; a missing key
yields the Go zero value `""`, exactly as `canonicalIDs[record.subject]`
does in `OperationsByClient`. -/
def resolveID (cids : List (String × String)) (f : String) : String :=
  (alFind cids f).getD ""

/-- Bounded successor depth: every successor chain from `n` stops within `d`
steps.  For the finite graphs built here, a uniform bound at the key count is
exactly acyclicity of the successor relation. -/
def BndB (out : List (String × Option (List String))) : Nat → String → Bool
  | 0, n => childList out n == []
  | d + 1, n => (childList out n).all (fun c => BndB out d c)

/-- Bounded predecessor depth, the mirror image of `BndB` on the incoming
view. -/
def UpBndB (inc : List (String × Option (List String))) : Nat → String → Bool
  | 0, n => incList inc n == []
  | d + 1, n => (incList inc n).all (fun p => UpBndB inc d p)

/-- Upper bound for the number of worklist iterations spent on the subtree
below `n`, given the depth budget `d`. -/
def stepBound (out : List (String × Option (List String))) : Nat → String → Nat
  | 0, _ => 1
  | d + 1, n => 1 + ((childList out n).map (stepBound out d)).sum

/-- Largest stored out-degree of the graph. -/
def maxOut (out : List (String × Option (List String))) : Nat :=
  out.foldl (fun a p => max a (match p.2 with | some s => s.length | none => 0)) 0

/-- Reachability along outgoing edges. -/
inductive Reach (out : List (String × Option (List String))) : String → String → Prop
  | refl (n : String) : Reach out n n
  | step {n c x : String} : c ∈ childList out n → Reach out c x → Reach out n x

/-- The canonical ID the branch rule assigns on a forest: a root keeps its
own fingerprint, a unique first child inherits its parent's canonical ID,
and every later child restarts from its own fingerprint.  `d` is a depth
budget making the recursion structural; it is stable once it dominates the
predecessor depth. -/
def specID (inc out : List (String × Option (List String))) : Nat → String → String
  | 0, n => n
  | d + 1, n =>
    match (incList inc n).head? with
    | none => n
    | some p => if (childList out p).head? = some n then specID inc out d p else n

/-- The record log of the repository test `populateServer` (times 1, 2, 3 for
`time1`, `time2`, `time3`).  Used by the test-replication theorems below. -/
def sampleRecords : List record :=
  [⟨"A", "", "op", 1⟩, ⟨"A", "", "op", 1⟩,
   ⟨"B", "A", "op", 1⟩, ⟨"B", "A", "op", 1⟩, ⟨"B", "A", "op", 1⟩,
   ⟨"C", "B", "op", 1⟩,
   ⟨"D", "C", "op", 1⟩, ⟨"D", "C", "op", 1⟩,
   ⟨"K", "D", "op", 1⟩, ⟨"E", "D", "op", 2⟩,
   ⟨"F", "B", "op", 2⟩, ⟨"G", "F", "op", 2⟩,
   ⟨"L", "G", "op", 2⟩, ⟨"M", "G", "op", 3⟩,
   ⟨"H", "?", "op", 1⟩,
   ⟨"J", "", "op", 1⟩, ⟨"I", "J", "op", 1⟩]

def c1recs : List record :=
  [⟨"X", "", "op", 5⟩, ⟨"Y", "X", "op", 1⟩, ⟨"Y", "", "op", 5⟩]

def c8recs : List record :=
  [⟨"X", "", "op", 5⟩, ⟨"Y", "X", "op", 1⟩]

def c6recs : List record :=
  [⟨"A", "", "op", 1⟩, ⟨"B", "A", "op", 1⟩, ⟨"B", "A", "op2", 2⟩]

def c5recs : List record :=
  [⟨"H", "?", "op", 1⟩]

def c10recs : List record :=
  [⟨"A", "B", "op", 1⟩, ⟨"B", "A", "op", 1⟩, ⟨"J", "", "op", 1⟩]

def c3recs : List record :=
  [⟨"A", "B", "op", 1⟩, ⟨"B", "A", "op", 1⟩]

def c3wrecs : List record :=
  [⟨"A", "", "op", 1⟩, ⟨"B", "A", "op", 1⟩, ⟨"C", "A", "op", 2⟩]

def c4recs : List record :=
  [⟨"Y", "X", "op", 1⟩, ⟨"Z", "X", "op", 1⟩, ⟨"Z", "W", "op", 1⟩]

def c4wrecs : List record :=
  [⟨"X", "", "op", 1⟩, ⟨"Y", "X", "op", 1⟩, ⟨"Z", "X", "op", 2⟩]

/-! ### Association-list and ordered-set lemmas -/

theorem alFind_append {α : Type} (m m' : List (String × α)) (f : String) :
    alFind (m ++ m') f =
      match alFind m f with
      | some v => some v
      | none => alFind m' f := by
  induction m with
  | nil => simp [alFind]
  | cons p rest ih =>
    by_cases h : p.1 = f <;> simp [alFind, h, ih]

theorem alFind_alSet_self {α : Type} (m : List (String × α)) (k : String) (v : α) :
    alFind (alSet m k v) k = some v := by
  induction m with
  | nil => simp [alSet, alFind]
  | cons p rest ih =>
    by_cases h : p.1 = k <;> simp [alSet, alFind, h, ih]

theorem alFind_alSet_ne {α : Type} (m : List (String × α)) (k f : String) (v : α)
    (h : k ≠ f) : alFind (alSet m k v) f = alFind m f := by
  induction m with
  | nil => simp [alSet, alFind, h]
  | cons p rest ih =>
    by_cases hp : p.1 = k
    · subst hp
      simp [alSet, alFind, h]
    · by_cases hf : p.1 = f <;> simp [alSet, alFind, hp, hf, ih, Ne.symm h]

theorem alSet_of_find_eq {α : Type} (m : List (String × α)) (k : String) (v : α)
    (h : alFind m k = some v) : alSet m k v = m := by
  induction m with
  | nil => simp [alFind] at h
  | cons p rest ih =>
    obtain ⟨k', v'⟩ := p
    by_cases hp : k' = k
    · subst hp
      rw [alFind] at h
      simp at h
      simp [alSet, h]
    · simp only [alFind, if_neg hp] at h
      simp [alSet, hp, ih h]

theorem alFind_alRegister_self (m : List (String × Option (List String))) (k : String) :
    alFind (alRegister m k) k = some ((alFind m k).getD none) := by
  unfold alRegister
  cases h : alFind m k with
  | some v => simp [h]
  | none => simp [alFind_append, h, alFind]

theorem alFind_alRegister_ne (m : List (String × Option (List String))) (k f : String)
    (h : k ≠ f) : alFind (alRegister m k) f = alFind m f := by
  unfold alRegister
  cases hk : alFind m k with
  | some v => rfl
  | none =>
    rw [alFind_append]
    cases hf : alFind m f with
    | some v => rfl
    | none => simp [alFind, h]

theorem alRegister_of_isSome (m : List (String × Option (List String))) (k : String)
    (h : (alFind m k).isSome) : alRegister m k = m := by
  unfold alRegister
  cases hk : alFind m k with
  | some v => rfl
  | none => rw [hk] at h; simp at h

theorem mem_alKeys_iff_isSome {α : Type} (m : List (String × α)) (f : String) :
    f ∈ alKeys m ↔ (alFind m f).isSome := by
  induction m with
  | nil => simp [alKeys, alFind]
  | cons p rest ih =>
    simp only [alKeys, List.map_cons, List.mem_cons, alFind]
    by_cases h : p.1 = f
    · simp [h]
    · have hne : f ≠ p.1 := Ne.symm h
      simp only [if_neg h, hne, false_or]
      exact ih

theorem alKeys_alSet {α : Type} (m : List (String × α)) (k : String) (v : α) :
    alKeys (alSet m k v) = if (alFind m k).isSome then alKeys m else alKeys m ++ [k] := by
  induction m with
  | nil => simp [alSet, alKeys, alFind]
  | cons p rest ih =>
    by_cases h : p.1 = k
    · simp [alSet, alKeys, alFind, h]
    · simp only [alSet, alKeys, alFind, h, if_false, if_neg h, List.map_cons]
      rw [show alKeys (alSet rest k v) = (alSet rest k v).map (·.1) from rfl] at ih
      by_cases hs : (alFind rest k).isSome <;>
        simp_all [alKeys]

theorem alKeys_alRegister (m : List (String × Option (List String))) (k : String) :
    alKeys (alRegister m k) =
      if (alFind m k).isSome then alKeys m else alKeys m ++ [k] := by
  unfold alRegister
  cases h : alFind m k with
  | some v => simp
  | none => simp [alKeys]

theorem nodup_alKeys_alSet {α : Type} (m : List (String × α)) (k : String) (v : α)
    (h : (alKeys m).Nodup) : (alKeys (alSet m k v)).Nodup := by
  rw [alKeys_alSet]
  by_cases hs : (alFind m k).isSome
  · simpa [hs]
  · have : k ∉ alKeys m := by
      rw [mem_alKeys_iff_isSome]; exact hs
    simp [hs, List.nodup_append, h, this]

theorem nodup_alKeys_alRegister (m : List (String × Option (List String))) (k : String)
    (h : (alKeys m).Nodup) : (alKeys (alRegister m k)).Nodup := by
  rw [alKeys_alRegister]
  by_cases hs : (alFind m k).isSome
  · simpa [hs]
  · have : k ∉ alKeys m := by
      rw [mem_alKeys_iff_isSome]; exact hs
    simp [hs, List.nodup_append, h, this]

theorem mem_setAdd (s : List String) (v x : String) :
    x ∈ setAdd s v ↔ x ∈ s ∨ x = v := by
  unfold setAdd
  by_cases h : v ∈ s
  · simp only [if_pos h]
    constructor
    · exact fun hx => Or.inl hx
    · rintro (hx | rfl) <;> [exact hx; exact h]
  · simp [if_neg h]

theorem setAdd_of_mem (s : List String) (v : String) (h : v ∈ s) : setAdd s v = s := by
  simp [setAdd, h]

theorem nodup_setAdd (s : List String) (v : String) (h : s.Nodup) :
    (setAdd s v).Nodup := by
  unfold setAdd
  by_cases hv : v ∈ s
  · simpa [hv]
  · simp [hv, List.nodup_append, h]

theorem setAdd_ne_nil (s : List String) (v : String) : setAdd s v ≠ [] := by
  unfold setAdd
  by_cases hv : v ∈ s
  · simp only [if_pos hv]
    intro h
    rw [h] at hv
    exact absurd hv (List.not_mem_nil v)
  · simp [hv]

theorem firstDedup_append_singleton (l : List String) (x : String) :
    firstDedup (l ++ [x]) = setAdd (firstDedup l) x := by
  simp [firstDedup, List.foldl_append]

theorem mem_foldl_setAdd (l : List String) (acc : List String) (x : String) :
    x ∈ l.foldl setAdd acc ↔ x ∈ acc ∨ x ∈ l := by
  induction l generalizing acc with
  | nil => simp
  | cons y ys ih =>
    simp only [List.foldl_cons, ih, mem_setAdd, List.mem_cons]
    tauto

theorem mem_firstDedup (l : List String) (x : String) :
    x ∈ firstDedup l ↔ x ∈ l := by
  simp [firstDedup, mem_foldl_setAdd]

theorem nodup_foldl_setAdd (l : List String) (acc : List String) (h : acc.Nodup) :
    (l.foldl setAdd acc).Nodup := by
  induction l generalizing acc with
  | nil => simpa
  | cons y ys ih => exact ih _ (nodup_setAdd _ _ h)

theorem nodup_firstDedup (l : List String) : (firstDedup l).Nodup :=
  nodup_foldl_setAdd l [] List.nodup_nil

theorem foldl_setAdd_prefix (l : List String) (acc : List String) :
    ∃ t, l.foldl setAdd acc = acc ++ t := by
  induction l generalizing acc with
  | nil => exact ⟨[], by simp⟩
  | cons y ys ih =>
    rcases ih (setAdd acc y) with ⟨t, ht⟩
    by_cases hy : y ∈ acc
    · refine ⟨t, ?_⟩
      rw [List.foldl_cons, ht, setAdd_of_mem _ _ hy]
    · refine ⟨y :: t, ?_⟩
      rw [List.foldl_cons, ht]
      simp [setAdd, hy]

theorem head_firstDedup (l : List String) : (firstDedup l).head? = l.head? := by
  cases l with
  | nil => rfl
  | cons x xs =>
    rcases foldl_setAdd_prefix xs [x] with ⟨t, ht⟩
    have : firstDedup (x :: xs) = x :: t := by
      simpa [firstDedup, setAdd] using ht
    simp [this]

/-! ### Appending one record to the spec-level views -/

@[simp] theorem isSubjectOf_append (rs : List record) (r : record) (f : String) :
    isSubjectOf (rs ++ [r]) f = (isSubjectOf rs f || (r.subject == f)) := by
  simp [isSubjectOf]

@[simp] theorem isPrevOf_append (rs : List record) (r : record) (f : String) :
    isPrevOf (rs ++ [r]) f =
      (isPrevOf rs f || (r.previous == f && !(r.previous == ""))) := by
  simp [isPrevOf]

@[simp] theorem hasPrevRecord_append (rs : List record) (r : record) (f : String) :
    hasPrevRecord (rs ++ [r]) f =
      (hasPrevRecord rs f || (r.subject == f && !(r.previous == ""))) := by
  simp [hasPrevRecord]

@[simp] theorem childSubjects_append (rs : List record) (r : record) (f : String) :
    childSubjects (rs ++ [r]) f =
      childSubjects rs f ++ (if r.previous == f then [r.subject] else []) := by
  simp only [childSubjects, List.filter_append]
  by_cases h : r.previous = f <;> simp [h]

@[simp] theorem prevsOf_append (rs : List record) (r : record) (f : String) :
    prevsOf (rs ++ [r]) f =
      prevsOf rs f ++
        (if r.subject == f && !(r.previous == "") then [r.previous] else []) := by
  simp only [prevsOf, List.filter_append]
  by_cases h : (r.subject == f && !(r.previous == "")) = true <;> simp [h]

theorem isPrevOf_empty (rs : List record) : isPrevOf rs "" = false := by
  simp [isPrevOf]

theorem isPrevOf_ne_empty (rs : List record) (f : String) (h : isPrevOf rs f = true) :
    f ≠ "" := by
  intro hf
  subst hf
  rw [isPrevOf_empty] at h
  cases h

theorem hasPrev_imp_subject (rs : List record) (f : String)
    (h : hasPrevRecord rs f = true) : isSubjectOf rs f = true := by
  simp only [hasPrevRecord, List.any_eq_true, Bool.and_eq_true] at h
  obtain ⟨r, hr, hs, _⟩ := h
  simp only [isSubjectOf, List.any_eq_true]
  exact ⟨r, hr, hs⟩

theorem childSubjects_eq_nil (rs : List record) (f : String)
    (h : isPrevOf rs f = false) (hf : f ≠ "") : childSubjects rs f = [] := by
  simp only [childSubjects, List.map_eq_nil_iff, List.filter_eq_nil_iff]
  intro r hr
  simp only [beq_iff_eq]
  intro hp
  have hw : (r.previous == f && !(r.previous == "")) = true := by
    rw [hp]
    simp [hf]
  have : isPrevOf rs f = true := by
    simp only [isPrevOf, List.any_eq_true]
    exact ⟨r, hr, hw⟩
  rw [h] at this
  cases this

theorem prevsOf_eq_nil (rs : List record) (f : String)
    (h : hasPrevRecord rs f = false) : prevsOf rs f = [] := by
  simp only [prevsOf, List.map_eq_nil_iff, List.filter_eq_nil_iff]
  intro r hr hp
  have : hasPrevRecord rs f = true := by
    simp only [hasPrevRecord, List.any_eq_true]
    exact ⟨r, hr, hp⟩
  rw [h] at this
  cases this

/-- The `nil`-pointer read that `alRegister` preserves, expressed on the spec
side of the outgoing view. -/
theorem specOut_getD (rs : List record) (f : String) :
    (specOut rs f).getD none =
      (if isPrevOf rs f then some (firstDedup (childSubjects rs f)) else none) := by
  unfold specOut
  by_cases h1 : (isSubjectOf rs f || isPrevOf rs f) = true
  · simp [h1]
  · rcases Bool.or_eq_false_iff.mp (Bool.eq_false_iff.mpr h1) with ⟨hs, h2⟩
    simp [hs, h2]

/-- Same as `specOut_getD` for the incoming view. -/
theorem specInc_getD (rs : List record) (f : String) :
    (specInc rs f).getD none =
      (if hasPrevRecord rs f then some (firstDedup (prevsOf rs f)) else none) := by
  unfold specInc
  by_cases h1 : (isSubjectOf rs f || isPrevOf rs f) = true
  · simp [h1]
  · rcases Bool.or_eq_false_iff.mp (Bool.eq_false_iff.mpr h1) with ⟨hs, hp⟩
    have h2 : hasPrevRecord rs f = false := by
      cases hh : hasPrevRecord rs f
      · rfl
      · rw [hasPrev_imp_subject rs f hh] at hs; cases hs
    simp [hs, hp, h2]

/-- Reading the stored edge set out of the outgoing view always yields the
ordered deduplication of the child subjects. -/
theorem specOut_extract (rs : List record) (f : String) (hf : f ≠ "") :
    (match specOut rs f with | some (some s) => s | _ => []) =
      firstDedup (childSubjects rs f) := by
  unfold specOut
  by_cases h1 : (isSubjectOf rs f || isPrevOf rs f) = true
  · by_cases h2 : isPrevOf rs f = true
    · simp [h1, h2]
    · have h2' : isPrevOf rs f = false := Bool.eq_false_iff.mpr h2
      simp [h1, h2', childSubjects_eq_nil rs f h2' hf, firstDedup]
  · have h2 : isPrevOf rs f = false := by
      rcases Bool.or_eq_false_iff.mp (Bool.eq_false_iff.mpr h1) with ⟨_, h⟩
      exact h
    simp [h1, childSubjects_eq_nil rs f h2 hf, firstDedup]

/-- Reading the stored edge set out of the incoming view always yields the
ordered deduplication of the previous fingerprints. -/
theorem specInc_extract (rs : List record) (f : String) :
    (match specInc rs f with | some (some s) => s | _ => []) =
      firstDedup (prevsOf rs f) := by
  unfold specInc
  by_cases h1 : (isSubjectOf rs f || isPrevOf rs f) = true
  · by_cases h2 : hasPrevRecord rs f = true
    · simp [h1, h2]
    · have h2' : hasPrevRecord rs f = false := Bool.eq_false_iff.mpr h2
      simp [h1, h2', prevsOf_eq_nil rs f h2', firstDedup]
  · have h2 : hasPrevRecord rs f = false := by
      rcases Bool.or_eq_false_iff.mp (Bool.eq_false_iff.mpr h1) with ⟨hs, _⟩
      cases hh : hasPrevRecord rs f
      · rfl
      · rw [hasPrev_imp_subject rs f hh] at hs; cases hs
    simp [h1, prevsOf_eq_nil rs f h2, firstDedup]

theorem childList_alRegister (m : List (String × Option (List String))) (k f : String) :
    childList (alRegister m k) f = childList m f := by
  unfold childList
  by_cases h : k = f
  · subst h
    rw [alFind_alRegister_self]
    cases hm : alFind m k with
    | none => simp
    | some v => cases v <;> simp
  · rw [alFind_alRegister_ne m k f h]

theorem incList_alRegister (m : List (String × Option (List String))) (k f : String) :
    incList (alRegister m k) f = incList m f := by
  unfold incList
  by_cases h : k = f
  · subst h
    rw [alFind_alRegister_self]
    cases hm : alFind m k with
    | none => simp
    | some v => cases v <;> simp
  · rw [alFind_alRegister_ne m k f h]

/-! ### Characterization of the graph construction -/

theorem adjStep_empty (res : adjacencyListPair) (r : record) (h : r.previous = "") :
    adjStep res r =
      ⟨alRegister res.incoming r.subject, alRegister res.outgoing r.subject⟩ := by
  simp [adjStep, h]

theorem adjStep_edge (res : adjacencyListPair) (r : record) (h : ¬r.previous = "") :
    adjStep res r =
      ⟨alRegister
          (alSet (alRegister res.incoming r.subject) r.subject
            (some (setAdd (incList (alRegister res.incoming r.subject) r.subject)
              r.previous)))
          r.previous,
        alSet (alRegister res.outgoing r.subject) r.previous
          (some (setAdd (childList (alRegister res.outgoing r.subject) r.previous)
            r.subject))⟩ := by
  simp [adjStep, h]

theorem adjacencyLists_append (rs : List record) (r : record) :
    adjacencyLists none (rs ++ [r]) = adjStep (adjacencyLists none rs) r := by
  simp [adjacencyLists, List.foldl_append]

theorem adj_char_out (rs : List record) :
    ∀ f, alFind (adjacencyLists none rs).outgoing f = specOut rs f := by
  induction rs using List.reverseRecOn with
  | nil =>
    intro f
    simp [adjacencyLists, alFind, specOut, isSubjectOf, isPrevOf]
  | append_singleton rs r ih =>
    intro f
    rw [adjacencyLists_append]
    by_cases hpre : r.previous = ""
    · rw [adjStep_empty _ _ hpre]
      by_cases hsub : r.subject = f
      · subst hsub
        rw [alFind_alRegister_self, ih, specOut_getD]
        unfold specOut
        simp only [isSubjectOf_append, isPrevOf_append, childSubjects_append, hpre]
        cases hp : isPrevOf rs r.subject
        · simp [hp]
        · have hne := isPrevOf_ne_empty rs r.subject hp
          have hbf : (("" : String) == r.subject) = false := by
            simp
            exact Ne.symm hne
          simp [hp, hbf]
      · rw [alFind_alRegister_ne _ _ _ hsub, ih]
        unfold specOut
        simp only [isSubjectOf_append, isPrevOf_append, childSubjects_append, hpre]
        have hbs : (r.subject == f) = false := by simp [hsub]
        cases hp : isPrevOf rs f
        · simp [hp, hbs]
        · have hne := isPrevOf_ne_empty rs f hp
          have hbf : (("" : String) == f) = false := by
            simp
            exact Ne.symm hne
          simp [hp, hbs, hbf]
    · rw [adjStep_edge _ _ hpre]
      have hcl : childList (alRegister (adjacencyLists none rs).outgoing r.subject)
          r.previous = firstDedup (childSubjects rs r.previous) := by
        rw [childList_alRegister]
        unfold childList
        rw [ih]
        exact specOut_extract rs r.previous hpre
      by_cases hfpre : r.previous = f
      · subst hfpre
        rw [alFind_alSet_self, hcl, ← firstDedup_append_singleton]
        unfold specOut
        have hbe : (r.previous == "") = false := by simp [hpre]
        simp [isSubjectOf_append, isPrevOf_append, childSubjects_append, hbe]
      · rw [alFind_alSet_ne _ _ _ _ hfpre]
        by_cases hsub : r.subject = f
        · subst hsub
          rw [alFind_alRegister_self, ih, specOut_getD]
          unfold specOut
          have hbp : (r.previous == r.subject) = false := by simp [hfpre]
          simp only [isSubjectOf_append, isPrevOf_append, childSubjects_append, hbp]
          cases hp : isPrevOf rs r.subject <;> simp [hp]
        · rw [alFind_alRegister_ne _ _ _ hsub, ih]
          unfold specOut
          have hbs : (r.subject == f) = false := by simp [hsub]
          have hbp : (r.previous == f) = false := by simp [hfpre]
          simp [isSubjectOf_append, isPrevOf_append, childSubjects_append, hbs, hbp]

theorem adj_char_inc (rs : List record) :
    ∀ f, alFind (adjacencyLists none rs).incoming f = specInc rs f := by
  induction rs using List.reverseRecOn with
  | nil =>
    intro f
    simp [adjacencyLists, alFind, specInc, isSubjectOf, isPrevOf]
  | append_singleton rs r ih =>
    intro f
    rw [adjacencyLists_append]
    by_cases hpre : r.previous = ""
    · rw [adjStep_empty _ _ hpre]
      by_cases hsub : r.subject = f
      · subst hsub
        rw [alFind_alRegister_self, ih, specInc_getD]
        unfold specInc
        have hbe : (!(r.previous == "")) = false := by simp [hpre]
        simp only [isSubjectOf_append, isPrevOf_append, hasPrevRecord_append,
          prevsOf_append, hbe, Bool.and_false, Bool.or_false]
        cases hp : hasPrevRecord rs r.subject <;> simp [hp]
      · rw [alFind_alRegister_ne _ _ _ hsub, ih]
        unfold specInc
        have hbs : (r.subject == f) = false := by simp [hsub]
        have hbe : (!(r.previous == "")) = false := by simp [hpre]
        simp [isSubjectOf_append, isPrevOf_append, hasPrevRecord_append,
          prevsOf_append, hbs, hbe]
    · rw [adjStep_edge _ _ hpre]
      have hil : incList (alRegister (adjacencyLists none rs).incoming r.subject)
          r.subject = firstDedup (prevsOf rs r.subject) := by
        rw [incList_alRegister]
        unfold incList
        rw [ih]
        exact specInc_extract rs r.subject
      by_cases hsub : r.subject = f
      · subst hsub
        have h2 : alFind
            (alSet (alRegister (adjacencyLists none rs).incoming r.subject) r.subject
              (some (setAdd (incList (alRegister (adjacencyLists none rs).incoming
                r.subject) r.subject) r.previous)))
            r.subject =
            some (some (firstDedup (prevsOf rs r.subject ++ [r.previous]))) := by
          rw [alFind_alSet_self, hil, ← firstDedup_append_singleton]
        have h3 : alFind
            (alRegister
              (alSet (alRegister (adjacencyLists none rs).incoming r.subject) r.subject
                (some (setAdd (incList (alRegister (adjacencyLists none rs).incoming
                  r.subject) r.subject) r.previous)))
              r.previous)
            r.subject =
            some (some (firstDedup (prevsOf rs r.subject ++ [r.previous]))) := by
          by_cases hps : r.previous = r.subject
          · rw [hps] at h2 ⊢
            rw [alRegister_of_isSome _ _ (by rw [h2]; rfl), h2]
          · rw [alFind_alRegister_ne _ _ _ hps, h2]
        rw [h3]
        unfold specInc
        have hbe : (!(r.previous == "")) = true := by simp [hpre]
        simp [isSubjectOf_append, isPrevOf_append, hasPrevRecord_append,
          prevsOf_append, hbe]
      · have h1 : alFind
            (alSet (alRegister (adjacencyLists none rs).incoming r.subject) r.subject
              (some (setAdd (incList (alRegister (adjacencyLists none rs).incoming
                r.subject) r.subject) r.previous)))
            f = alFind (adjacencyLists none rs).incoming f := by
          rw [alFind_alSet_ne _ _ _ _ hsub, alFind_alRegister_ne _ _ _ hsub]
        by_cases hfpre : r.previous = f
        · subst hfpre
          rw [alFind_alRegister_self, h1, ih, specInc_getD]
          unfold specInc
          have hbs : (r.subject == r.previous) = false := by
            simp
            exact fun hh => hsub hh
          have hbe : (!(r.previous == "")) = true := by simp [hpre]
          simp only [isSubjectOf_append, isPrevOf_append, hasPrevRecord_append,
            prevsOf_append, hbs, hbe, Bool.false_and, Bool.and_true, Bool.or_false]
          cases hp : hasPrevRecord rs r.previous <;> simp [hp]
        · rw [alFind_alRegister_ne _ _ _ hfpre, h1, ih]
          unfold specInc
          have hbs : (r.subject == f) = false := by simp [hsub]
          have hbp : (r.previous == f) = false := by simp [hfpre]
          simp [isSubjectOf_append, isPrevOf_append, hasPrevRecord_append,
            prevsOf_append, hbs, hbp]

/-! ### Time filtering and sink counting -/

theorem foldl_adj_since (s : Int) (rs : List record) :
    ∀ acc : adjacencyListPair,
      rs.foldl (fun res r => if r.utcTime < s then res else adjStep res r) acc =
        (rs.filter (fun r => decide (s ≤ r.utcTime))).foldl adjStep acc := by
  induction rs with
  | nil => intro acc; rfl
  | cons r rest ih =>
    intro acc
    by_cases h : r.utcTime < s
    · have hd : decide (s ≤ r.utcTime) = false := decide_eq_false (not_le.mpr h)
      simp only [List.foldl_cons, List.filter_cons, hd, if_pos h]
      exact ih acc
    · have hd : decide (s ≤ r.utcTime) = true := decide_eq_true (not_lt.mp h)
      simp only [List.foldl_cons, List.filter_cons, hd, if_neg h]
      exact ih (adjStep acc r)

/-- The `since` filter inside the fold is the same as pre-filtering the log:
`RecentClients` really works on the sub-log of records inside the window. -/
theorem adjacencyLists_since (s : Int) (rs : List record) :
    adjacencyLists (some s) rs =
      adjacencyLists none (rs.filter (fun r => decide (s ≤ r.utcTime))) := by
  unfold adjacencyLists
  exact foldl_adj_since s rs ⟨[], []⟩

theorem alFind_of_nodup_mem {α : Type} (m : List (String × α)) (k : String) (v : α)
    (hd : (alKeys m).Nodup) (hm : (k, v) ∈ m) : alFind m k = some v := by
  induction m with
  | nil => cases hm
  | cons p rest ih =>
    rcases List.mem_cons.mp hm with rfl | hm'
    · simp [alFind]
    · have hd' : (alKeys rest).Nodup := (List.nodup_cons.mp hd).2
      have hp : p.1 ∉ alKeys rest := (List.nodup_cons.mp hd).1
      have hk : k ∈ alKeys rest := by
        simp only [alKeys, List.mem_map]
        exact ⟨(k, v), hm', rfl⟩
      have hne : p.1 ≠ k := fun hh => hp (hh ▸ hk)
      simp [alFind, hne, ih hd' hm']

theorem countSinks_eq_keys (m : List (String × Option (List String)))
    (hd : (alKeys m).Nodup) :
    countSinks m =
      ((alKeys m).filter (fun f => decide (alFind m f = some none))).length := by
  induction m with
  | nil => rfl
  | cons p rest ih =>
    obtain ⟨hp, hd'⟩ := List.nodup_cons.mp hd
    have hcongr : ∀ f ∈ alKeys rest,
        decide (alFind (p :: rest) f = some none) =
          decide (alFind rest f = some none) := by
      intro f hf
      have hne : p.1 ≠ f := by
        intro hh
        apply hp
        show p.1 ∈ List.map (fun x => x.1) rest
        rw [hh]
        exact hf
      simp [alFind, hne]
    have hfilter : (alKeys rest).filter
          (fun f => decide (alFind (p :: rest) f = some none)) =
        (alKeys rest).filter (fun f => decide (alFind rest f = some none)) :=
      List.filter_congr hcongr
    have hself : alFind (p :: rest) p.1 = some p.2 := by
      simp [alFind]
    cases hv : p.2 with
    | none =>
      have : countSinks (p :: rest) = countSinks rest + 1 := by
        simp [countSinks, List.countP_cons, hv]
      rw [this, ih hd']
      have hkey : (alKeys (p :: rest)) = p.1 :: alKeys rest := rfl
      rw [hkey, List.filter_cons]
      have : decide (alFind (p :: rest) p.1 = some none) = true := by
        rw [hself, hv]; simp
      rw [this]
      simp only [if_true, List.length_cons, hfilter]
    | some s =>
      have : countSinks (p :: rest) = countSinks rest := by
        simp [countSinks, List.countP_cons, hv]
      rw [this, ih hd']
      have hkey : (alKeys (p :: rest)) = p.1 :: alKeys rest := rfl
      rw [hkey, List.filter_cons]
      have : decide (alFind (p :: rest) p.1 = some none) = false := by
        rw [hself, hv]; simp
      rw [this]
      simp only [Bool.false_eq_true, if_false, hfilter]

theorem nodup_keys_adjStep (res : adjacencyListPair) (r : record)
    (h : (alKeys res.incoming).Nodup ∧ (alKeys res.outgoing).Nodup) :
    (alKeys (adjStep res r).incoming).Nodup ∧
      (alKeys (adjStep res r).outgoing).Nodup := by
  by_cases hpre : r.previous = ""
  · rw [adjStep_empty _ _ hpre]
    exact ⟨nodup_alKeys_alRegister _ _ h.1, nodup_alKeys_alRegister _ _ h.2⟩
  · rw [adjStep_edge _ _ hpre]
    refine ⟨?_, ?_⟩
    · exact nodup_alKeys_alRegister _ _
        (nodup_alKeys_alSet _ _ _ (nodup_alKeys_alRegister _ _ h.1))
    · exact nodup_alKeys_alSet _ _ _ (nodup_alKeys_alRegister _ _ h.2)

theorem nodup_keys_foldl (g : adjacencyListPair → record → adjacencyListPair)
    (hg : ∀ acc r, g acc r = acc ∨ g acc r = adjStep acc r) :
    ∀ (rs : List record) (acc : adjacencyListPair),
      (alKeys acc.incoming).Nodup → (alKeys acc.outgoing).Nodup →
      (alKeys (rs.foldl g acc).incoming).Nodup ∧
        (alKeys (rs.foldl g acc).outgoing).Nodup := by
  intro rs
  induction rs with
  | nil => intro acc h1 h2; exact ⟨h1, h2⟩
  | cons r rest ih =>
    intro acc h1 h2
    simp only [List.foldl_cons]
    rcases hg acc r with h | h
    · rw [h]; exact ih acc h1 h2
    · rw [h]
      have := nodup_keys_adjStep acc r ⟨h1, h2⟩
      exact ih (adjStep acc r) this.1 this.2

theorem nodup_keys_adjacencyLists (since : Option Int) (rs : List record) :
    (alKeys (adjacencyLists since rs).incoming).Nodup ∧
      (alKeys (adjacencyLists since rs).outgoing).Nodup := by
  unfold adjacencyLists
  refine nodup_keys_foldl _ ?_ rs ⟨[], []⟩ List.nodup_nil List.nodup_nil
  intro acc r
  cases since with
  | none => exact Or.inr rfl
  | some s =>
    by_cases h : r.utcTime < s
    · left
      show (if r.utcTime < s then acc else adjStep acc r) = acc
      exact if_pos h
    · right
      show (if r.utcTime < s then acc else adjStep acc r) = adjStep acc r
      exact if_neg h

theorem specOut_eq_some_none_iff (rs : List record) (f : String) :
    specOut rs f = some none ↔
      (isSubjectOf rs f = true ∧ isPrevOf rs f = false) := by
  unfold specOut
  cases hs : isSubjectOf rs f <;> cases hp : isPrevOf rs f <;> simp [hs, hp]

theorem mem_allFingerprints (rs : List record) (f : String) :
    f ∈ allFingerprints rs ↔ (isSubjectOf rs f || isPrevOf rs f) = true := by
  unfold allFingerprints isSubjectOf isPrevOf
  simp only [List.mem_append, List.mem_filter, List.mem_map, List.any_eq_true,
    Bool.or_eq_true, Bool.and_eq_true, beq_iff_eq, Bool.not_eq_true',
    beq_eq_false_iff_ne]
  constructor
  · rintro (⟨r, hr, rfl⟩ | ⟨⟨r, hr, rfl⟩, hne⟩)
    · exact Or.inl ⟨r, hr, rfl⟩
    · exact Or.inr ⟨r, hr, rfl, hne⟩
  · rintro (⟨r, hr, rfl⟩ | ⟨r, hr, rfl, hne⟩)
    · exact Or.inl ⟨r, hr, rfl⟩
    · exact Or.inr ⟨⟨r, hr, rfl⟩, hne⟩

theorem neverPrevious_eq (rs : List record) (f : String) :
    neverPrevious rs f = !(isPrevOf rs f) := by
  induction rs with
  | nil => rfl
  | cons r rest ih =>
    unfold neverPrevious isPrevOf
    simp only [List.all_cons, List.any_cons, Bool.not_or]
    unfold neverPrevious isPrevOf at ih
    rw [ih]
    cases hpf : (r.previous == f) <;> cases hpe : (r.previous == "") <;> simp [hpf, hpe]

/-- Claim C2: for every record sequence, `TotalClients()` equals the number of
distinct fingerprints appearing in the sequence that are never referenced as
the `previous` field of any record (an empty `previous` meaning "none"), each
counted exactly once. -/
theorem claim_C2 (records : List record) :
    TotalClients records = claimTotalClients records := by
  unfold TotalClients claimTotalClients
  rw [countSinks_eq_keys _ (nodup_keys_adjacencyLists none records).2]
  have hpred : ∀ f,
      decide (alFind (adjacencyLists none records).outgoing f = some none) =
        (isSubjectOf records f && !(isPrevOf records f)) := by
    intro f
    rw [adj_char_out]
    unfold specOut
    cases hs : isSubjectOf records f <;> cases hp : isPrevOf records f <;>
      simp [hs, hp]
  simp only [hpred]
  have hperm : List.Perm (alKeys (adjacencyLists none records).outgoing)
      ((allFingerprints records).dedup) := by
    rw [List.perm_ext_iff_of_nodup (nodup_keys_adjacencyLists none records).2
      (List.nodup_dedup _)]
    intro f
    rw [mem_alKeys_iff_isSome, adj_char_out, List.mem_dedup, mem_allFingerprints]
    unfold specOut
    cases hs : isSubjectOf records f <;> cases hp : isPrevOf records f <;>
      simp [hs, hp]
  rw [(hperm.filter _).length_eq]
  have hcongr : ∀ f ∈ (allFingerprints records).dedup,
      (isSubjectOf records f && !(isPrevOf records f)) = neverPrevious records f := by
    intro f hf
    rw [List.mem_dedup, mem_allFingerprints] at hf
    rw [neverPrevious_eq]
    cases hp : isPrevOf records f
    · rw [hp] at hf
      simp only [Bool.or_false] at hf
      simp [hf]
    · simp
  rw [List.filter_congr hcongr]


/-- Claim C1 fails on the code: with records at times 5, 1 and 5, raising the
threshold from 0 to 3 drops the only successor edge of `X` while `X` stays
registered as a subject, so the sink count increases from 1 to 2. -/
theorem claim_C1_cex :
    ((0 : Int) ≤ 3) ∧ RecentClients 0 c1recs < RecentClients 3 c1recs := by
  decide

/-- Claim C1 (amended): for `t1 ≤ t2` the record set admitted by the filter at
`t2` is contained in the one admitted at `t1`, and every sink of the filtered
graph at `t2` is the subject of some record admitted at `t1`; but the sink
count `RecentClients` itself is not monotone, because a subject whose only
successors were recorded before the threshold becomes a fresh sink. -/
theorem claim_C1 (records : List record) (t1 t2 : Int) (h : t1 ≤ t2) :
    (∀ r ∈ records.filter (fun r => decide (t2 ≤ r.utcTime)),
        r ∈ records.filter (fun r => decide (t1 ≤ r.utcTime))) ∧
    (∀ f, alFind (adjacencyLists (some t2) records).outgoing f = some none →
        ∃ r ∈ records, t1 ≤ r.utcTime ∧ r.subject = f) := by
  constructor
  · intro r hr
    rw [List.mem_filter] at hr ⊢
    refine ⟨hr.1, ?_⟩
    have h2 : t2 ≤ r.utcTime := of_decide_eq_true hr.2
    exact decide_eq_true (le_trans h h2)
  · intro f hf
    rw [adjacencyLists_since, adj_char_out] at hf
    obtain ⟨hs, _⟩ := (specOut_eq_some_none_iff _ f).mp hf
    simp only [isSubjectOf, List.any_eq_true, List.mem_filter, beq_iff_eq,
      Bool.and_eq_true, decide_eq_true_eq] at hs
    obtain ⟨r, ⟨hr, ht⟩, hsub⟩ := hs
    exact ⟨r, hr, le_trans h ht, hsub⟩

/-- Witness for the amended claim C1 at the counterexample's record set with
thresholds 0 and 3. -/
theorem claim_C1_witness :
    (∀ r ∈ c1recs.filter (fun r => decide ((3 : Int) ≤ r.utcTime)),
        r ∈ c1recs.filter (fun r => decide ((0 : Int) ≤ r.utcTime))) ∧
    (∀ f, alFind (adjacencyLists (some 3) c1recs).outgoing f = some none →
        ∃ r ∈ c1recs, (0 : Int) ≤ r.utcTime ∧ r.subject = f) :=
  claim_C1 c1recs 0 3 (by decide)

theorem alFind_mem {α : Type} (m : List (String × α)) (k : String) (v : α)
    (h : alFind m k = some v) : (k, v) ∈ m := by
  induction m with
  | nil => cases h
  | cons q rest ih =>
    obtain ⟨k', v'⟩ := q
    by_cases hk : k' = k
    · subst hk
      rw [alFind] at h
      simp at h
      simp [h]
    · rw [alFind] at h
      simp only [if_neg hk] at h
      exact List.mem_cons_of_mem _ (ih h)

/-- Claim C7: when claims extraction fails, `Append` surfaces the wrapped
cause, appends nothing, and all three queries are unchanged; when it
succeeds, exactly one record built from the extracted subject and previous
is appended. -/
theorem claim_C7 (records : List record) (parsed : Except String (String × String))
    (operation : String) (t : Int) :
    (∀ e, parsed = .error e →
      ERF.Append records parsed operation t = .error (wrapMsg e) ∧
      recordsAfter records (ERF.Append records parsed operation t) = records ∧
      TotalClients (recordsAfter records (ERF.Append records parsed operation t)) =
        TotalClients records ∧
      (∀ since, RecentClients since
          (recordsAfter records (ERF.Append records parsed operation t)) =
        RecentClients since records) ∧
      OperationsByClient
          (recordsAfter records (ERF.Append records parsed operation t)) =
        OperationsByClient records) ∧
    (∀ sub pre, parsed = .ok (sub, pre) →
      ERF.Append records parsed operation t =
        .ok (records ++ [⟨sub, pre, operation, t⟩])) := by
  constructor
  · rintro e rfl
    exact ⟨rfl, rfl, rfl, fun _ => rfl, rfl⟩
  · rintro sub pre rfl
    rfl

/-- Witness for claim C7: a concrete failing parse and a concrete successful
parse on the empty store. -/
theorem claim_C7_witness :
    ERF.Append [] (Except.error "bad") "op" 0 = Except.error (wrapMsg "bad") ∧
    ERF.Append [] (Except.ok ("A", "")) "op" 0 =
      Except.ok [(⟨"A", "", "op", 0⟩ : record)] :=
  ⟨((claim_C7 [] (Except.error "bad") "op" 0).1 "bad" rfl).1,
   (claim_C7 [] (Except.ok ("A", "")) "op" 0).2 "A" "" rfl⟩

/-- Claim C8: the graph behind `RecentClients t` is exactly the graph of the
records with `utcTime ≥ t`, and a fingerprint that is a subject inside the
window with no successor recorded inside the window is a sink of that graph
and is counted. -/
theorem claim_C8 (records : List record) (t : Int) (f : String)
    (h1 : ∃ r ∈ records, t ≤ r.utcTime ∧ r.subject = f)
    (h2 : ∀ r ∈ records, t ≤ r.utcTime → r.previous ≠ f) :
    adjacencyLists (some t) records =
      adjacencyLists none (records.filter (fun r => decide (t ≤ r.utcTime))) ∧
    alFind (adjacencyLists (some t) records).outgoing f = some none ∧
    1 ≤ RecentClients t records := by
  have hsink : alFind (adjacencyLists (some t) records).outgoing f = some none := by
    rw [adjacencyLists_since, adj_char_out]
    apply (specOut_eq_some_none_iff _ _).mpr
    constructor
    · obtain ⟨r, hr, ht, hs⟩ := h1
      simp only [isSubjectOf, List.any_eq_true, List.mem_filter]
      exact ⟨r, ⟨hr, decide_eq_true ht⟩, by simp [hs]⟩
    · cases hp : isPrevOf (records.filter (fun r => decide (t ≤ r.utcTime))) f
      · rfl
      · exfalso
        simp only [isPrevOf, List.any_eq_true, List.mem_filter, Bool.and_eq_true,
          beq_iff_eq, Bool.not_eq_true', beq_eq_false_iff_ne,
          decide_eq_true_eq] at hp
        obtain ⟨r, ⟨hr, ht⟩, hpf, _⟩ := hp
        exact h2 r hr ht hpf
  refine ⟨adjacencyLists_since t records, hsink, ?_⟩
  unfold RecentClients countSinks
  have hm : (f, none) ∈ (adjacencyLists (some t) records).outgoing :=
    alFind_mem _ _ _ hsink
  exact List.countP_pos.mpr ⟨(f, none), hm, rfl⟩


/-- Witness for claim C8: `X` is a subject at time 5 and its only successor
record lies before the threshold 3, so `X` is a sink of the filtered graph. -/
theorem claim_C8_witness :
    (adjacencyLists (some 3) c8recs =
      adjacencyLists none (c8recs.filter (fun r => decide ((3 : Int) ≤ r.utcTime))) ∧
    alFind (adjacencyLists (some 3) c8recs).outgoing "X" = some none ∧
    1 ≤ RecentClients 3 c8recs) :=
  claim_C8 c8recs 3 "X" (by decide) (by decide)

/-- Claim C9: appending a record whose subject and previous both already
occur on some logged record leaves the lineage graph, and therefore
`TotalClients`, unchanged: registration is idempotent and the duplicate edge
is not added a second time to the ordered set. -/
theorem claim_C9 (records : List record) (s p op : String) (t : Int)
    (h : ∃ r ∈ records, r.subject = s ∧ r.previous = p) :
    TotalClients (records ++ [(⟨s, p, op, t⟩ : record)]) = TotalClients records := by
  obtain ⟨r0, hr0, hs0, hp0⟩ := h
  have hsub : isSubjectOf records s = true := by
    simp only [isSubjectOf, List.any_eq_true]
    exact ⟨r0, hr0, by simp [hs0]⟩
  have F1 : (alFind (adjacencyLists none records).outgoing s).isSome := by
    rw [adj_char_out]
    unfold specOut
    simp [hsub]
  have F2 : (alFind (adjacencyLists none records).incoming s).isSome := by
    rw [adj_char_inc]
    unfold specInc
    simp [hsub]
  have hstep : adjacencyLists none (records ++ [(⟨s, p, op, t⟩ : record)]) =
      adjacencyLists none records := by
    rw [adjacencyLists_append]
    by_cases hp : p = ""
    · rw [adjStep_empty _ _ (show (⟨s, p, op, t⟩ : record).previous = "" from hp)]
      show (⟨alRegister (adjacencyLists none records).incoming s,
        alRegister (adjacencyLists none records).outgoing s⟩ : adjacencyListPair) =
        adjacencyLists none records
      rw [alRegister_of_isSome _ _ F2, alRegister_of_isSome _ _ F1]
    · have hprev : isPrevOf records p = true := by
        simp only [isPrevOf, List.any_eq_true]
        refine ⟨r0, hr0, ?_⟩
        rw [hp0]
        simp [hp]
      have hhasprev : hasPrevRecord records s = true := by
        simp only [hasPrevRecord, List.any_eq_true]
        refine ⟨r0, hr0, ?_⟩
        rw [hs0, hp0]
        simp [hp]
      have F3 : alFind (adjacencyLists none records).outgoing p =
          some (some (firstDedup (childSubjects records p))) := by
        rw [adj_char_out]
        unfold specOut
        simp [hprev]
      have F4 : alFind (adjacencyLists none records).incoming s =
          some (some (firstDedup (prevsOf records s))) := by
        rw [adj_char_inc]
        unfold specInc
        simp [hsub, hhasprev]
      have F5 : (alFind (adjacencyLists none records).incoming p).isSome := by
        rw [adj_char_inc]
        unfold specInc
        simp [hprev]
      have hsmem : s ∈ firstDedup (childSubjects records p) := by
        rw [mem_firstDedup]
        simp only [childSubjects, List.mem_map, List.mem_filter]
        exact ⟨r0, ⟨hr0, by simp [hp0]⟩, hs0⟩
      have hpmem : p ∈ firstDedup (prevsOf records s) := by
        rw [mem_firstDedup]
        simp only [prevsOf, List.mem_map, List.mem_filter]
        exact ⟨r0, ⟨hr0, by rw [hs0, hp0]; simp [hp]⟩, hp0⟩
      rw [adjStep_edge _ _ (show ¬(⟨s, p, op, t⟩ : record).previous = "" from hp)]
      show (⟨alRegister
          (alSet (alRegister (adjacencyLists none records).incoming s) s
            (some (setAdd (incList (alRegister (adjacencyLists none records).incoming
              s) s) p))) p,
        alSet (alRegister (adjacencyLists none records).outgoing s) p
          (some (setAdd (childList (alRegister (adjacencyLists none records).outgoing
            s) p) s))⟩ : adjacencyListPair) = adjacencyLists none records
      rw [alRegister_of_isSome _ _ F2, alRegister_of_isSome _ _ F1]
      have hcl : childList (adjacencyLists none records).outgoing p =
          firstDedup (childSubjects records p) := by
        unfold childList
        rw [F3]
      have hil : incList (adjacencyLists none records).incoming s =
          firstDedup (prevsOf records s) := by
        unfold incList
        rw [F4]
      rw [hcl, hil, setAdd_of_mem _ _ hsmem, setAdd_of_mem _ _ hpmem,
        alSet_of_find_eq _ _ _ F3, alSet_of_find_eq _ _ _ F4,
        alRegister_of_isSome _ _ F5]
  unfold TotalClients
  rw [hstep]

/-- Witness for claim C9: the duplicate of the edge record `A -> B` changes
nothing. -/
theorem claim_C9_witness :
    TotalClients
        ([⟨"A", "", "op", 1⟩, ⟨"B", "A", "op", 1⟩] ++
          [(⟨"B", "A", "op2", 7⟩ : record)]) =
      TotalClients [⟨"A", "", "op", 1⟩, ⟨"B", "A", "op", 1⟩] :=
  claim_C9 [⟨"A", "", "op", 1⟩, ⟨"B", "A", "op", 1⟩] "B" "A" "op2" 7
    ⟨⟨"B", "A", "op", 1⟩, by decide, rfl, rfl⟩

/-! ### Aggregation totals -/

theorem sumCounts_append_one (ops : List (String × Nat)) (op : String) :
    sumCounts (ops ++ [(op, 1)]) = sumCounts ops + 1 := by
  simp [sumCounts]

theorem sumCounts_alSet_succ (ops : List (String × Nat)) (op : String) (n : Nat)
    (h : alFind ops op = some n) :
    sumCounts (alSet ops op (n + 1)) = sumCounts ops + 1 := by
  induction ops with
  | nil => cases h
  | cons q rest ih =>
    obtain ⟨k, v⟩ := q
    by_cases hk : k = op
    · subst hk
      rw [alFind] at h
      simp at h
      subst h
      simp [alSet, sumCounts]
      omega
    · rw [alFind] at h
      simp only [if_neg hk] at h
      simp only [alSet, if_neg hk]
      simp only [sumCounts, List.map_cons, List.sum_cons] at ih ⊢
      rw [ih h]
      omega

theorem sumCounts_bumpOp (ops : List (String × Nat)) (op : String) :
    sumCounts (bumpOp ops op) = sumCounts ops + 1 := by
  unfold bumpOp
  cases h : alFind ops op with
  | none => exact sumCounts_append_one ops op
  | some n => exact sumCounts_alSet_succ ops op n h

theorem totalFor_opStep (cids : List (String × String))
    (acc : List (String × List (String × Nat))) (r : record) (c : String) :
    totalFor (opStep cids acc r) c =
      totalFor acc c + (if resolveID cids r.subject = c then 1 else 0) := by
  unfold opStep resolveID
  cases hf : alFind acc ((alFind cids r.subject).getD "") with
  | none =>
    simp only [hf]
    by_cases hc : (alFind cids r.subject).getD "" = c
    · subst hc
      unfold totalFor
      rw [alFind_append, hf]
      simp [alFind, sumCounts, hf]
    · unfold totalFor
      rw [alFind_append]
      have : alFind [((alFind cids r.subject).getD "", [(r.operation, 1)])] c = none := by
        simp [alFind, hc]
      cases hfc : alFind acc c with
      | none => simp [this, hc]
      | some ops => simp [hc]
  | some ops =>
    simp only [hf]
    by_cases hc : (alFind cids r.subject).getD "" = c
    · subst hc
      unfold totalFor
      rw [alFind_alSet_self, hf]
      simp [sumCounts_bumpOp]
    · unfold totalFor
      rw [alFind_alSet_ne _ _ _ _ hc]
      simp [hc]

theorem totalFor_foldl (cids : List (String × String)) (rs : List record) :
    ∀ (acc : List (String × List (String × Nat))) (c : String),
      totalFor (rs.foldl (opStep cids) acc) c =
        totalFor acc c + rs.countP (fun r => resolveID cids r.subject == c) := by
  induction rs with
  | nil => intro acc c; simp
  | cons r rest ih =>
    intro acc c
    rw [List.foldl_cons, ih, totalFor_opStep, List.countP_cons]
    by_cases hrc : resolveID cids r.subject = c <;> simp [hrc] <;> omega

/-- Claim C6: for every canonical ID present in `OperationsByClient()`, the
sum of its counts over all operation names equals the number of records in
the full history whose subject resolves (through the canonical-ID map, with
the zero value `""` for unmapped subjects) to that canonical ID. -/
theorem claim_C6 (records : List record) (c : String)
    (h : (alFind (OperationsByClient records) c).isSome) :
    totalFor (OperationsByClient records) c =
      (records.filter (fun r =>
        resolveID (mapCanonicalIDs (adjacencyLists none records)) r.subject ==
          c)).length := by
  unfold OperationsByClient
  rw [totalFor_foldl]
  rw [List.countP_eq_length_filter]
  simp [totalFor, alFind]


/-- Witness for claim C6: all three records resolve to canonical ID `A` and
its counts sum to 3. -/
theorem claim_C6_witness :
    ((alFind (OperationsByClient c6recs) "A").isSome) ∧
      totalFor (OperationsByClient c6recs) "A" =
        (c6recs.filter (fun r =>
          resolveID (mapCanonicalIDs (adjacencyLists none c6recs)) r.subject ==
            "A")).length :=
  ⟨by decide, claim_C6 c6recs "A" (by decide)⟩

/-! ### Worklist lemmas -/

theorem traverse_ids_nil (out : List (String × Option (List String))) (fuel : Nat)
    (n : String) (nodes : List String) (result : List (String × String)) :
    canonLoop out (fuel + 1) n nodes [] result = result := by
  simp [canonLoop]

theorem traverse_step_nil_children (out : List (String × Option (List String)))
    (fuel : Nat) (n : String) (nodes : List String) (result : List (String × String))
    (id : String) (ids' : List String) (hcs : childList out n = []) :
    canonLoop out (fuel + 1) n nodes (id :: ids') result =
      match nodes with
      | [] => alSet result n id
      | n' :: rest => canonLoop out fuel n' rest ids' (alSet result n id) := by
  simp [canonLoop, hcs]

theorem traverse_step_cons (out : List (String × Option (List String)))
    (fuel : Nat) (n : String) (nodes : List String) (result : List (String × String))
    (id : String) (ids' : List String) (c0 : String) (crest : List String)
    (n₂ : String) (rest₂ : List String)
    (hcs : childList out n = c0 :: crest)
    (hrev : (c0 :: crest).reverse ++ nodes = n₂ :: rest₂) :
    canonLoop out (fuel + 1) n nodes (id :: ids') result =
      canonLoop out fuel n₂ rest₂ (crest.reverse ++ id :: ids') (alSet result n id) := by
  simp only [canonLoop, hcs, hrev]

theorem exists_rev_cons (c0 : String) (crest nodes : List String) :
    ∃ n₂ rest₂, (c0 :: crest).reverse ++ nodes = n₂ :: rest₂ := by
  cases h : (c0 :: crest).reverse with
  | nil =>
    exfalso
    have := congrArg List.length h
    simp at this
  | cons a t => exact ⟨a, t ++ nodes, by simp [h]⟩

theorem alFind_alSet_isSome {α : Type} (m : List (String × α)) (k x : String) (v : α)
    (h : (alFind m x).isSome) : (alFind (alSet m k v) x).isSome := by
  by_cases hk : k = x
  · subst hk
    rw [alFind_alSet_self]
    rfl
  · rw [alFind_alSet_ne _ _ _ _ hk]
    exact h

/-- Master preservation lemma: a class `B` of nodes that contains no stack
node and is closed against entering via edges from outside is never touched
by the worklist. -/
theorem traverse_find_preserve (out : List (String × Option (List String)))
    (B : String → Prop)
    (hsafe : ∀ w c, ¬B w → c ∈ childList out w → ¬B c) :
    ∀ fuel (n : String) (nodes ids : List String) (result : List (String × String)),
      ¬B n → (∀ m ∈ nodes, ¬B m) →
      ∀ b, B b →
        alFind (canonLoop out fuel n nodes ids result) b = alFind result b := by
  intro fuel
  induction fuel with
  | zero => intro n nodes ids result _ _ b _; rfl
  | succ f ih =>
    intro n nodes ids result hn hs b hb
    cases ids with
    | nil => rw [traverse_ids_nil]
    | cons id ids' =>
      have hset : alFind (alSet result n id) b = alFind result b :=
        alFind_alSet_ne _ _ _ _ (fun hh => hn (by rw [hh]; exact hb))
      cases hcs : childList out n with
      | nil =>
        rw [traverse_step_nil_children out f n nodes result id ids' hcs]
        cases nodes with
        | nil => exact hset
        | cons n' rest =>
          rw [ih n' rest ids' (alSet result n id) (hs n' (List.mem_cons_self n' rest))
            (fun m hm => hs m (List.mem_cons_of_mem _ hm)) b hb]
          exact hset
      | cons c0 crest =>
        have hchild : ∀ c ∈ childList out n, ¬B c := fun c hc => hsafe n c hn hc
        obtain ⟨n₂, rest₂, hrev⟩ := exists_rev_cons c0 crest nodes
        rw [traverse_step_cons out f n nodes result id ids' c0 crest n₂ rest₂ hcs hrev]
        have hmem : ∀ m ∈ n₂ :: rest₂, ¬B m := by
          intro m hm
          rw [← hrev] at hm
          rcases List.mem_append.mp hm with h1 | h2
          · refine hchild m ?_
            rw [hcs]
            exact List.mem_reverse.mp h1
          · exact hs m h2
        rw [ih n₂ rest₂ _ (alSet result n id) (hmem n₂ (List.mem_cons_self _ _))
          (fun m hm => hmem m (List.mem_cons_of_mem _ hm)) b hb]
        exact hset

/-- Assigned keys survive the rest of the worklist. -/
theorem traverse_isSome_mono (out : List (String × Option (List String))) :
    ∀ fuel (n : String) (nodes ids : List String) (result : List (String × String))
      (x : String),
      (alFind result x).isSome →
      (alFind (canonLoop out fuel n nodes ids result) x).isSome := by
  intro fuel
  induction fuel with
  | zero => intro n nodes ids result x hx; exact hx
  | succ f ih =>
    intro n nodes ids result x hx
    cases ids with
    | nil => rw [traverse_ids_nil]; exact hx
    | cons id ids' =>
      have hx' : (alFind (alSet result n id) x).isSome :=
        alFind_alSet_isSome _ _ _ _ hx
      cases hcs : childList out n with
      | nil =>
        rw [traverse_step_nil_children out f n nodes result id ids' hcs]
        cases nodes with
        | nil => exact hx'
        | cons n' rest => exact ih n' rest ids' _ x hx'
      | cons c0 crest =>
        obtain ⟨n₂, rest₂, hrev⟩ := exists_rev_cons c0 crest nodes
        rw [traverse_step_cons out f n nodes result id ids' c0 crest n₂ rest₂ hcs hrev]
        exact ih n₂ rest₂ _ _ x hx'

/-- A root whose fingerprint is never the target of an edge maps to itself
after its own traversal. -/
theorem traverse_root_self (out : List (String × Option (List String)))
    (n : String) (result : List (String × String)) (fuel : Nat)
    (hsafe : ∀ w c, c ∈ childList out w → c ≠ n) (hfuel : 1 ≤ fuel) :
    alFind (canonLoop out fuel n [] [n] result) n = some n := by
  cases fuel with
  | zero => cases hfuel
  | succ f =>
    cases hcs : childList out n with
    | nil =>
      rw [traverse_step_nil_children out f n [] result n [] hcs]
      exact alFind_alSet_self result n n
    | cons c0 crest =>
      obtain ⟨n₂, rest₂, hrev⟩ := exists_rev_cons c0 crest []
      rw [traverse_step_cons out f n [] result n [] c0 crest n₂ rest₂ hcs hrev]
      have hmem : ∀ m ∈ n₂ :: rest₂, ¬(m = n) := by
        intro m hm
        rw [← hrev] at hm
        rcases List.mem_append.mp hm with h1 | h2
        · refine hsafe n m ?_
          rw [hcs]
          exact List.mem_reverse.mp h1
        · cases h2
      rw [traverse_find_preserve out (fun b => b = n)
        (fun w c hw hc hcn => hsafe w c hc hcn) f n₂ rest₂ _ (alSet result n n)
        (hmem n₂ (List.mem_cons_self _ _))
        (fun m hm => hmem m (List.mem_cons_of_mem _ hm)) n rfl]
      exact alFind_alSet_self result n n

/-! ### Graph shape facts feeding the resolver proofs -/

theorem childList_adj (rs : List record) (w : String) :
    childList (adjacencyLists none rs).outgoing w =
      if isPrevOf rs w then firstDedup (childSubjects rs w) else [] := by
  unfold childList
  rw [adj_char_out]
  unfold specOut
  cases hp : isPrevOf rs w <;> cases hs : isSubjectOf rs w <;> simp [hp, hs]

theorem incList_adj (rs : List record) (x : String) :
    incList (adjacencyLists none rs).incoming x =
      if hasPrevRecord rs x then firstDedup (prevsOf rs x) else [] := by
  unfold incList
  rw [adj_char_inc]
  unfold specInc
  cases hp : hasPrevRecord rs x
  · cases hs : isSubjectOf rs x <;> cases hprev : isPrevOf rs x <;> simp [hp, hs, hprev]
  · have hs := hasPrev_imp_subject _ _ hp
    simp [hp, hs]

theorem mem_childList_iff (rs : List record) (w c : String) :
    c ∈ childList (adjacencyLists none rs).outgoing w ↔
      ∃ r ∈ rs, r.subject = c ∧ r.previous = w ∧ w ≠ "" := by
  rw [childList_adj]
  cases hp : isPrevOf rs w
  · simp only [Bool.false_eq_true, if_false, List.not_mem_nil, false_iff]
    rintro ⟨r, hr, -, hprev, hne⟩
    have : isPrevOf rs w = true := by
      simp only [isPrevOf, List.any_eq_true]
      exact ⟨r, hr, by rw [hprev]; simp [hne]⟩
    rw [hp] at this
    cases this
  · have hne := isPrevOf_ne_empty rs w hp
    simp only [if_true, mem_firstDedup]
    unfold childSubjects
    simp only [List.mem_map, List.mem_filter, beq_iff_eq]
    constructor
    · rintro ⟨r, ⟨hr, hprev⟩, hsub⟩
      exact ⟨r, hr, hsub, hprev, hne⟩
    · rintro ⟨r, hr, hsub, hprev, -⟩
      exact ⟨r, ⟨hr, hprev⟩, hsub⟩

theorem mem_incList_iff (rs : List record) (x p : String) :
    p ∈ incList (adjacencyLists none rs).incoming x ↔
      ∃ r ∈ rs, r.subject = x ∧ r.previous = p ∧ p ≠ "" := by
  rw [incList_adj]
  cases hp : hasPrevRecord rs x
  · simp only [Bool.false_eq_true, if_false, List.not_mem_nil, false_iff]
    rintro ⟨r, hr, hsub, hprev, hne⟩
    have : hasPrevRecord rs x = true := by
      simp only [hasPrevRecord, List.any_eq_true]
      exact ⟨r, hr, by rw [hsub, hprev]; simp [hne]⟩
    rw [hp] at this
    cases this
  · simp only [if_true, mem_firstDedup]
    unfold prevsOf
    simp only [List.mem_map, List.mem_filter, Bool.and_eq_true, beq_iff_eq,
      Bool.not_eq_true', beq_eq_false_iff_ne]
    constructor
    · rintro ⟨r, ⟨hr, hsub, hne⟩, hprev⟩
      exact ⟨r, hr, hsub, hprev, hprev ▸ hne⟩
    · rintro ⟨r, hr, hsub, hprev, hne⟩
      exact ⟨r, ⟨hr, hsub, hprev ▸ hne⟩, hprev⟩

theorem mem_keys_out_iff (rs : List record) (f : String) :
    f ∈ alKeys (adjacencyLists none rs).outgoing ↔
      (isSubjectOf rs f || isPrevOf rs f) = true := by
  rw [mem_alKeys_iff_isSome, adj_char_out]
  unfold specOut
  cases hs : isSubjectOf rs f <;> cases hp : isPrevOf rs f <;> simp [hs, hp]

theorem mem_keys_inc_iff (rs : List record) (f : String) :
    f ∈ alKeys (adjacencyLists none rs).incoming ↔
      (isSubjectOf rs f || isPrevOf rs f) = true := by
  rw [mem_alKeys_iff_isSome, adj_char_inc]
  unfold specInc
  cases hs : isSubjectOf rs f <;> cases hp : isPrevOf rs f <;> simp [hs, hp]

theorem inc_eq_some_none_iff (rs : List record) (f : String) :
    alFind (adjacencyLists none rs).incoming f = some none ↔
      ((isSubjectOf rs f || isPrevOf rs f) = true ∧ hasPrevRecord rs f = false) := by
  rw [adj_char_inc]
  unfold specInc
  cases hs : isSubjectOf rs f <;> cases hp : isPrevOf rs f <;>
    cases hh : hasPrevRecord rs f <;> simp [hs, hp, hh]

theorem canonFuel_pos (out : List (String × Option (List String))) :
    1 ≤ canonFuel out :=
  Nat.one_le_pow _ _ (by omega)

/-- The root loop never touches a class `B` of nodes with no root and no
edge entering from outside. -/
theorem fold_find_preserve (out : List (String × Option (List String))) (F : Nat)
    (B : String → Prop)
    (hsafe : ∀ w c, ¬B w → c ∈ childList out w → ¬B c) :
    ∀ (entries : List (String × Option (List String)))
      (result : List (String × String)),
      (∀ q ∈ entries, q.2 = none → ¬B q.1) →
      ∀ b, B b →
        alFind (entries.foldl (canonStep out F) result) b = alFind result b := by
  intro entries
  induction entries with
  | nil => intro result _ b _; rfl
  | cons e rest ih =>
    intro result hroots b hb
    simp only [List.foldl_cons]
    have hstep : alFind (canonStep out F result e) b = alFind result b := by
      unfold canonStep
      cases he : e.2 with
      | some v => rfl
      | none =>
        exact traverse_find_preserve out B hsafe F e.1 [] [e.1] result
          (hroots e (List.mem_cons_self _ _) he)
          (fun m hm => absurd hm (List.not_mem_nil m)) b hb
    rw [ih (canonStep out F result e)
      (fun q hq => hroots q (List.mem_cons_of_mem _ hq)) b hb, hstep]

/-- Once the root loop reaches the entry of an untargeted root, that root is
mapped to itself and stays mapped to itself. -/
theorem fold_root_self (out : List (String × Option (List String))) (F : Nat)
    (f : String)
    (hsafe : ∀ w c, c ∈ childList out w → c ≠ f)
    (hF : 1 ≤ F) :
    ∀ (entries : List (String × Option (List String)))
      (result : List (String × String)),
      (∀ q ∈ entries, q.1 = f → q.2 = none) →
      (((f, none) ∈ entries) ∨ alFind result f = some f) →
      alFind (entries.foldl (canonStep out F) result) f = some f := by
  intro entries
  induction entries with
  | nil =>
    intro result _ hor
    rcases hor with h | h
    · cases h
    · exact h
  | cons e rest ih =>
    intro result hq hor
    simp only [List.foldl_cons]
    by_cases hef : e.1 = f
    · have he2 : e.2 = none := hq e (List.mem_cons_self _ _) hef
      have hstep : alFind (canonStep out F result e) f = some f := by
        unfold canonStep
        rw [he2, hef]
        exact traverse_root_self out f result F hsafe hF
      exact ih _ (fun q hq' => hq q (List.mem_cons_of_mem _ hq')) (Or.inr hstep)
    · have hstep : alFind (canonStep out F result e) f = alFind result f := by
        unfold canonStep
        cases he : e.2 with
        | some v => rfl
        | none =>
          exact traverse_find_preserve out (fun b => b = f)
            (fun w c _ hc hcf => hsafe w c hc hcf) F e.1 [] [e.1] result hef
            (fun m hm => absurd hm (List.not_mem_nil m)) f rfl
      rcases hor with hmem | hres
      · rcases List.mem_cons.mp hmem with heq | hmem'
        · exact absurd (congrArg Prod.fst heq).symm hef
        · exact ih _ (fun q hq' => hq q (List.mem_cons_of_mem _ hq')) (Or.inl hmem')
      · refine ih _ (fun q hq' => hq q (List.mem_cons_of_mem _ hq')) (Or.inr ?_)
        rw [hstep]
        exact hres


/-- Claim C5 fails on the code in its last clause: the unseen root `"?"` of
the single record `? -> H` does appear as a key of the canonical-ID map
(mapped to itself). -/
theorem claim_C5_cex :
    ((∃ r ∈ c5recs, r.previous = "?") ∧ (∀ r ∈ c5recs, r.subject ≠ "?")) ∧
      (alFind (mapCanonicalIDs (adjacencyLists none c5recs)) "?").isSome := by
  decide

/-- Claim C5 (amended): a fingerprint referenced as a previous value but
never a subject is registered in the incoming view with the `nil` edge set,
so canonical-ID resolution treats it as a root and seeds a traversal from
it; it does appear as a key of the resulting map, mapped to itself. -/
theorem claim_C5 (records : List record) (f : String) (hne : f ≠ "")
    (hprev : ∃ r ∈ records, r.previous = f)
    (hnsub : ∀ r ∈ records, r.subject ≠ f) :
    alFind (adjacencyLists none records).incoming f = some none ∧
    alFind (mapCanonicalIDs (adjacencyLists none records)) f = some f := by
  have hpf : isPrevOf records f = true := by
    obtain ⟨r, hr, hp⟩ := hprev
    simp only [isPrevOf, List.any_eq_true]
    exact ⟨r, hr, by rw [hp]; simp [hne]⟩
  have hhp : hasPrevRecord records f = false := by
    cases hh : hasPrevRecord records f
    · rfl
    · exfalso
      simp only [hasPrevRecord, List.any_eq_true, Bool.and_eq_true, beq_iff_eq] at hh
      obtain ⟨r, hr, hs, -⟩ := hh
      exact hnsub r hr hs
  have hroot : alFind (adjacencyLists none records).incoming f = some none :=
    (inc_eq_some_none_iff records f).mpr ⟨by simp [hpf], hhp⟩
  refine ⟨hroot, ?_⟩
  have hsafe : ∀ w c,
      c ∈ childList (adjacencyLists none records).outgoing w → c ≠ f := by
    intro w c hc hcf
    obtain ⟨r, hr, hs, -, -⟩ := (mem_childList_iff records w c).mp hc
    exact hnsub r hr (by rw [hs, hcf])
  have hnodup := (nodup_keys_adjacencyLists none records).1
  have hentries : ∀ q ∈ (adjacencyLists none records).incoming,
      q.1 = f → q.2 = none := by
    intro q hq hqf
    have hmem : (f, q.2) ∈ (adjacencyLists none records).incoming := by
      rw [← hqf]
      exact hq
    have := alFind_of_nodup_mem _ f q.2 hnodup hmem
    rw [hroot] at this
    exact (Option.some.injEq _ _).mp this.symm
  unfold mapCanonicalIDs
  exact fold_root_self (adjacencyLists none records).outgoing
    (canonFuel (adjacencyLists none records).outgoing) f hsafe
    (canonFuel_pos _) (adjacencyLists none records).incoming [] hentries
    (Or.inl (alFind_mem _ _ _ hroot))

/-- Witness for the amended claim C5 at the counterexample record set. -/
theorem claim_C5_witness :
    alFind (adjacencyLists none c5recs).incoming "?" = some none ∧
    alFind (mapCanonicalIDs (adjacencyLists none c5recs)) "?" = some "?" :=
  claim_C5 c5recs "?" (by decide) ⟨⟨"H", "?", "op", 1⟩, by decide, rfl⟩
    (by decide)

/-- Claim C10: the members of a predecessor cycle (every record about a
member names another member as its non-empty previous fingerprint, and some
record exists for each member) receive no canonical ID, and
`OperationsByClient` files all of their records under the empty-string key. -/
theorem claim_C10 (records : List record) (C : List String)
    (h1 : ∀ f ∈ C, ∃ r ∈ records, r.subject = f)
    (h2 : ∀ r ∈ records, r.subject ∈ C → r.previous ≠ "" ∧ r.previous ∈ C) :
    (∀ f ∈ C, alFind (mapCanonicalIDs (adjacencyLists none records)) f = none) ∧
    (records.filter (fun r => decide (r.subject ∈ C))).length ≤
      totalFor (OperationsByClient records) "" := by
  have hsafe : ∀ w c, ¬(w ∈ C) →
      c ∈ childList (adjacencyLists none records).outgoing w → ¬(c ∈ C) := by
    intro w c hw hc hcC
    obtain ⟨r, hr, hs, hp, -⟩ := (mem_childList_iff records w c).mp hc
    have := (h2 r hr (by rw [hs]; exact hcC)).2
    rw [hp] at this
    exact hw this
  have hroots : ∀ q ∈ (adjacencyLists none records).incoming,
      q.2 = none → ¬(q.1 ∈ C) := by
    intro q hq hq2 hqC
    obtain ⟨r, hr, hs⟩ := h1 q.1 hqC
    have hhp : hasPrevRecord records q.1 = true := by
      simp only [hasPrevRecord, List.any_eq_true]
      refine ⟨r, hr, ?_⟩
      have hpne := (h2 r hr (by rw [hs]; exact hqC)).1
      rw [hs]
      simp [hpne]
    have hfind : alFind (adjacencyLists none records).incoming q.1 = some none := by
      have hmem : (q.1, q.2) ∈ (adjacencyLists none records).incoming := hq
      have := alFind_of_nodup_mem _ q.1 q.2
        (nodup_keys_adjacencyLists none records).1 hmem
      rw [hq2] at this
      exact this
    have := ((inc_eq_some_none_iff records q.1).mp hfind).2
    rw [hhp] at this
    cases this
  have hnone : ∀ f ∈ C,
      alFind (mapCanonicalIDs (adjacencyLists none records)) f = none := by
    intro f hf
    unfold mapCanonicalIDs
    rw [fold_find_preserve (adjacencyLists none records).outgoing
      (canonFuel (adjacencyLists none records).outgoing) (fun b => b ∈ C) hsafe
      (adjacencyLists none records).incoming [] hroots f hf]
    rfl
  refine ⟨hnone, ?_⟩
  have htot : totalFor (OperationsByClient records) "" =
      records.countP (fun r =>
        resolveID (mapCanonicalIDs (adjacencyLists none records)) r.subject ==
          "") := by
    unfold OperationsByClient
    rw [totalFor_foldl]
    simp [totalFor, alFind]
  rw [htot, ← List.countP_eq_length_filter]
  refine List.countP_mono_left ?_
  intro r hr hrC
  have hsC : r.subject ∈ C := of_decide_eq_true hrC
  unfold resolveID
  rw [hnone r.subject hsC]
  rfl


/-- Witness for claim C10: the two-element predecessor cycle `A <-> B`
receives no canonical IDs and its two records are filed under `""`. -/
theorem claim_C10_witness :
    ((∀ f ∈ ["A", "B"],
        alFind (mapCanonicalIDs (adjacencyLists none c10recs)) f = none) ∧
      (c10recs.filter (fun r => decide (r.subject ∈ ["A", "B"]))).length ≤
        totalFor (OperationsByClient c10recs) "") :=
  claim_C10 c10recs ["A", "B"] (by decide) (by decide)

/-! ### Totality of the resolver on acyclic graphs -/

theorem stepBound_pos (out : List (String × Option (List String))) (d : Nat)
    (n : String) : 1 ≤ stepBound out d n := by
  cases d <;> simp [stepBound]

theorem Reach_cases (out : List (String × Option (List String))) {n x : String}
    (h : Reach out n x) : x = n ∨ ∃ c ∈ childList out n, Reach out c x := by
  cases h with
  | refl => exact Or.inl rfl
  | step hc hr => exact Or.inr ⟨_, hc, hr⟩

theorem Reach_extend (out : List (String × Option (List String))) {r p x : String}
    (h : Reach out r p) : x ∈ childList out p → Reach out r x := by
  induction h with
  | refl => exact fun hx => Reach.step hx (Reach.refl x)
  | step hc _ ih => exact fun hx => Reach.step hc (ih hx)

theorem forall₂_replicate {P : Nat → String → Prop} (d : Nat) (l : List String)
    (h : ∀ m ∈ l, P d m) :
    List.Forall₂ P (List.replicate l.length d) l := by
  induction l with
  | nil => exact List.Forall₂.nil
  | cons a t ih =>
    exact List.Forall₂.cons (h a (List.mem_cons_self a t))
      (ih fun m hm => h m (List.mem_cons_of_mem _ hm))

theorem forall2_append_nat_str {α β : Type} {P : α → β → Prop} :
    ∀ {l₁ l₃ : List α} {l₂ l₄ : List β},
      List.Forall₂ P l₁ l₂ → List.Forall₂ P l₃ l₄ →
      List.Forall₂ P (l₁ ++ l₃) (l₂ ++ l₄) := by
  intro l₁ l₃ l₂ l₄ h1 h2
  induction h1 with
  | nil => exact h2
  | cons hab _ ih => exact List.Forall₂.cons hab ih

theorem zipWith_replicate_left (f : Nat → String → Nat) (d : Nat) (l : List String) :
    List.zipWith f (List.replicate l.length d) l = l.map (f d) := by
  induction l with
  | nil => rfl
  | cons a t ih => simp [List.replicate_succ, ih]

/-- The worklist assigns every node reachable from the current stack, given
per-node depth budgets and enough fuel for the induced step bound. -/
theorem canonLoop_reach_isSome (out : List (String × Option (List String))) :
    ∀ fuel (d : Nat) (ds : List Nat) (n : String) (nodes ids : List String)
      (result : List (String × String)),
      ids.length = nodes.length + 1 →
      BndB out d n = true →
      List.Forall₂ (fun e m => BndB out e m = true) ds nodes →
      stepBound out d n + (List.zipWith (stepBound out) ds nodes).sum ≤ fuel →
      ∀ x, (Reach out n x ∨ (∃ m ∈ nodes, Reach out m x) ∨
          (alFind result x).isSome) →
        (alFind (canonLoop out fuel n nodes ids result) x).isSome := by
  intro fuel
  induction fuel with
  | zero =>
    intro d ds n nodes ids result hlen hB hF2 hfuel x hx
    have := stepBound_pos out d n
    omega
  | succ f ih =>
    intro d ds n nodes ids result hlen hB hF2 hfuel x hx
    cases ids with
    | nil => simp at hlen
    | cons id ids' =>
      have hRn : (alFind (alSet result n id) n).isSome := by
        rw [alFind_alSet_self]
        rfl
      have hRmono : ∀ y, (alFind result y).isSome →
          (alFind (alSet result n id) y).isSome :=
        fun y hy => alFind_alSet_isSome _ _ _ _ hy
      cases hcs : childList out n with
      | nil =>
        rw [traverse_step_nil_children out f n nodes result id ids' hcs]
        have hreach_n : ∀ y, Reach out n y → y = n := by
          intro y hy
          rcases Reach_cases out hy with rfl | ⟨c, hc, -⟩
          · rfl
          · rw [hcs] at hc
            cases hc
        cases nodes with
        | nil =>
          rcases hx with hx | ⟨m, hm, -⟩ | hx
          · rw [hreach_n x hx]
            exact hRn
          · cases hm
          · exact hRmono x hx
        | cons n'' rest =>
          rcases List.forall₂_cons_right_iff.mp hF2 with ⟨d'', ds', hd'', hds', rfl⟩
          have hlen' : ids'.length = rest.length + 1 := by
            simpa using hlen
          have hfuel' : stepBound out d'' n'' +
              (List.zipWith (stepBound out) ds' rest).sum ≤ f := by
            have h1 := stepBound_pos out d n
            simp only [List.zipWith_cons_cons, List.sum_cons] at hfuel
            omega
          refine ih d'' ds' n'' rest ids' (alSet result n id) hlen' hd'' hds'
            hfuel' x ?_
          rcases hx with hx | ⟨m, hm, hmx⟩ | hx
          · rw [hreach_n x hx]
            exact Or.inr (Or.inr hRn)
          · rcases List.mem_cons.mp hm with rfl | hm'
            · exact Or.inl hmx
            · exact Or.inr (Or.inl ⟨m, hm', hmx⟩)
          · exact Or.inr (Or.inr (hRmono x hx))
      | cons c0 crest =>
        cases d with
        | zero =>
          rw [BndB] at hB
          rw [hcs] at hB
          simp at hB
        | succ d' =>
          have hchildren : ∀ c ∈ childList out n, BndB out d' c = true := by
            rw [BndB] at hB
            exact List.all_eq_true.mp hB
          cases hcsr : (c0 :: crest).reverse with
          | nil =>
            exfalso
            have := congrArg List.length hcsr
            simp at this
          | cons n₂ t =>
            have hrev : (c0 :: crest).reverse ++ nodes = n₂ :: (t ++ nodes) := by
              rw [hcsr]
              simp
            rw [traverse_step_cons out f n nodes result id ids' c0 crest n₂
              (t ++ nodes) hcs hrev]
            have hmemcs : ∀ m ∈ n₂ :: t, m ∈ childList out n := by
              intro m hm
              rw [hcs, ← List.mem_reverse, hcsr]
              exact hm
            have htlen : t.length = crest.length := by
              have := congrArg List.length hcsr
              simp at this
              omega
            have hlen' : (crest.reverse ++ id :: ids').length =
                (t ++ nodes).length + 1 := by
              simp only [List.length_append, List.length_reverse, List.length_cons]
              simp only [List.length_cons] at hlen
              omega
            have hF2t : List.Forall₂ (fun e m => BndB out e m = true)
                (List.replicate t.length d') t :=
              forall₂_replicate d' t
                (fun m hm => hchildren m (hmemcs m (List.mem_cons_of_mem _ hm)))
            have hF2' : List.Forall₂ (fun e m => BndB out e m = true)
                (List.replicate t.length d' ++ ds) (t ++ nodes) :=
              forall2_append_nat_str hF2t hF2
            have hzip : (List.zipWith (stepBound out)
                (List.replicate t.length d' ++ ds) (t ++ nodes)).sum =
                (t.map (stepBound out d')).sum +
                  (List.zipWith (stepBound out) ds nodes).sum := by
              rw [List.zipWith_append _ _ _ _ _ (by simp),
                zipWith_replicate_left, List.sum_append]
            have hperm : (((c0 :: crest).reverse).map (stepBound out d')).sum =
                ((c0 :: crest).map (stepBound out d')).sum :=
              ((List.reverse_perm (c0 :: crest)).map (stepBound out d')).sum_eq
            have hsum_cs : ((childList out n).map (stepBound out d')).sum =
                stepBound out d' n₂ + (t.map (stepBound out d')).sum := by
              rw [hcs, ← hperm, hcsr]
              simp
            have hfuel' : stepBound out d' n₂ +
                (List.zipWith (stepBound out)
                  (List.replicate t.length d' ++ ds) (t ++ nodes)).sum ≤ f := by
              rw [hzip]
              have hstep : stepBound out (d' + 1) n =
                  1 + ((childList out n).map (stepBound out d')).sum := rfl
              rw [hstep, hsum_cs] at hfuel
              omega
            refine ih d' (List.replicate t.length d' ++ ds) n₂ (t ++ nodes)
              (crest.reverse ++ id :: ids') (alSet result n id) hlen'
              (hchildren n₂ (hmemcs n₂ (List.mem_cons_self _ _))) hF2' hfuel' x ?_
            rcases hx with hx | ⟨m, hm, hmx⟩ | hx
            · rcases Reach_cases out hx with rfl | ⟨c, hc, hcx⟩
              · exact Or.inr (Or.inr hRn)
              · have : c ∈ n₂ :: t := by
                  rw [← hcsr, List.mem_reverse, ← hcs]
                  exact hc
                rcases List.mem_cons.mp this with rfl | hct
                · exact Or.inl hcx
                · exact Or.inr (Or.inl ⟨c, List.mem_append_left _ hct, hcx⟩)
            · exact Or.inr (Or.inl ⟨m, List.mem_append_right _ hm, hmx⟩)
            · exact Or.inr (Or.inr (hRmono x hx))

theorem sum_map_le_card_mul (g : String → Nat) (B : Nat) :
    ∀ l : List String, (∀ x ∈ l, g x ≤ B) → (l.map g).sum ≤ l.length * B := by
  intro l
  induction l with
  | nil => intro; simp
  | cons a t ih =>
    intro h
    simp only [List.map_cons, List.sum_cons, List.length_cons]
    have h1 := h a (List.mem_cons_self a t)
    have h2 := ih fun x hx => h x (List.mem_cons_of_mem _ hx)
    calc g a + (t.map g).sum ≤ B + t.length * B := Nat.add_le_add h1 h2
      _ = (t.length + 1) * B := by ring

theorem foldl_max_ge_mem (g : String × Option (List String) → Nat) :
    ∀ (l : List (String × Option (List String))) (a : Nat) (p : String × Option (List String)),
      p ∈ l → g p ≤ l.foldl (fun acc q => max acc (g q)) a := by
  intro l
  induction l with
  | nil => intro a p hp; cases hp
  | cons q t ih =>
    intro a p hp
    rcases List.mem_cons.mp hp with rfl | hp'
    · have hseed : ∀ (l' : List (String × Option (List String))) (b : Nat),
          b ≤ l'.foldl (fun acc q => max acc (g q)) b := by
        intro l'
        induction l' with
        | nil => intro b; exact le_refl b
        | cons q' t' ih' =>
          intro b
          exact le_trans (le_max_left b (g q')) (ih' (max b (g q')))
      exact le_trans (le_max_right a (g p)) (hseed t (max a (g p)))
    · exact ih (max a (g q)) p hp'

theorem foldl_max_le (g : String × Option (List String) → Nat) (B : Nat) :
    ∀ (l : List (String × Option (List String))) (a : Nat),
      a ≤ B → (∀ p ∈ l, g p ≤ B) →
      l.foldl (fun acc q => max acc (g q)) a ≤ B := by
  intro l
  induction l with
  | nil => intro a ha _; exact ha
  | cons q t ih =>
    intro a ha h
    refine ih (max a (g q)) (max_le ha (h q (List.mem_cons_self q t))) ?_
    exact fun p hp => h p (List.mem_cons_of_mem _ hp)

theorem childList_length_le_maxOut (out : List (String × Option (List String)))
    (n : String) : (childList out n).length ≤ maxOut out := by
  unfold childList
  cases hf : alFind out n with
  | none => simp
  | some v =>
    cases v with
    | none => simp
    | some s =>
      have hmem : (n, some s) ∈ out := alFind_mem _ _ _ hf
      have := foldl_max_ge_mem
        (fun p => match p.2 with | some s => s.length | none => 0) out 0
        (n, some s) hmem
      exact this

theorem stepBound_le_pow (out : List (String × Option (List String))) :
    ∀ (d : Nat) (n : String), stepBound out d n ≤ (maxOut out + 1) ^ (d + 1) := by
  intro d
  induction d with
  | zero =>
    intro n
    have : 1 ≤ maxOut out + 1 := by omega
    simpa [stepBound] using this
  | succ d ih =>
    intro n
    have hsum : ((childList out n).map (stepBound out d)).sum ≤
        (childList out n).length * (maxOut out + 1) ^ (d + 1) :=
      sum_map_le_card_mul _ _ _ (fun c _ => ih c)
    have hlen := childList_length_le_maxOut out n
    have hP : 1 ≤ (maxOut out + 1) ^ (d + 1) := Nat.one_le_pow _ _ (by omega)
    have hstep : stepBound out (d + 1) n =
        1 + ((childList out n).map (stepBound out d)).sum := rfl
    rw [hstep]
    have h2 : (childList out n).length * (maxOut out + 1) ^ (d + 1) ≤
        maxOut out * (maxOut out + 1) ^ (d + 1) :=
      Nat.mul_le_mul_right _ hlen
    have h3 : (maxOut out + 1) ^ (d + 1 + 1) =
        (maxOut out + 1) ^ (d + 1) * (maxOut out + 1) := pow_succ _ _
    have h4 : (maxOut out + 1) ^ (d + 1) * (maxOut out + 1) =
        (maxOut out + 1) ^ (d + 1) + (maxOut out + 1) ^ (d + 1) * maxOut out := by
      ring
    rw [h3, h4]
    have h5 : (maxOut out + 1) ^ (d + 1) * maxOut out =
        maxOut out * (maxOut out + 1) ^ (d + 1) := by ring
    rw [h5]
    omega

theorem foldl_size_eq (g : String × Option (List String) → Nat) :
    ∀ (l : List (String × Option (List String))) (a : Nat),
      l.foldl (fun acc p => acc + 1 + g p) a = a + (l.map (fun p => 1 + g p)).sum := by
  intro l
  induction l with
  | nil => intro a; simp
  | cons q t ih =>
    intro a
    simp only [List.foldl_cons, List.map_cons, List.sum_cons, ih]
    omega

theorem length_le_size_sum (g : String × Option (List String) → Nat) :
    ∀ l : List (String × Option (List String)),
      l.length ≤ (l.map (fun p => 1 + g p)).sum := by
  intro l
  induction l with
  | nil => simp
  | cons q t ih =>
    simp only [List.length_cons, List.map_cons, List.sum_cons]
    omega

theorem mem_le_size_sum (g : String × Option (List String) → Nat) :
    ∀ (l : List (String × Option (List String))) (p : String × Option (List String)),
      p ∈ l → g p ≤ (l.map (fun q => 1 + g q)).sum := by
  intro l
  induction l with
  | nil => intro p hp; cases hp
  | cons q t ih =>
    intro p hp
    simp only [List.map_cons, List.sum_cons]
    rcases List.mem_cons.mp hp with rfl | hp'
    · omega
    · have := ih p hp'
      omega

theorem stepBound_le_canonFuel (out : List (String × Option (List String)))
    (n : String) :
    stepBound out (alKeys out).length n ≤ canonFuel out := by
  have hT : canonFuel out =
      (out.foldl (fun a p =>
        a + 1 + (match p.2 with | some s => s.length | none => 0)) 0 + 2) ^
       (out.foldl (fun a p =>
        a + 1 + (match p.2 with | some s => s.length | none => 0)) 0 + 2) := rfl
  set g : String × Option (List String) → Nat :=
    fun p => match p.2 with | some s => s.length | none => 0 with hg
  set T : Nat := out.foldl (fun a p => a + 1 + g p) 0 with hTdef
  have hTsum : T = (out.map (fun p => 1 + g p)).sum := by
    rw [hTdef, foldl_size_eq g out 0]
    omega
  have hK : (alKeys out).length ≤ T := by
    rw [hTsum]
    have : (alKeys out).length = out.length := by simp [alKeys]
    rw [this]
    exact length_le_size_sum g out
  have hM : maxOut out ≤ T := by
    unfold maxOut
    refine foldl_max_le g T out 0 (Nat.zero_le T) ?_
    intro p hp
    rw [hTsum]
    exact mem_le_size_sum g out p hp
  calc stepBound out (alKeys out).length n
      ≤ (maxOut out + 1) ^ ((alKeys out).length + 1) := stepBound_le_pow out _ n
    _ ≤ (T + 2) ^ ((alKeys out).length + 1) :=
        Nat.pow_le_pow_of_le_left (by omega) _
    _ ≤ (T + 2) ^ (T + 2) :=
        Nat.pow_le_pow_of_le_right (by omega) (by omega)
    _ = canonFuel out := by rw [hT]

theorem firstDedup_ne_nil (l : List String) (h : l ≠ []) : firstDedup l ≠ [] := by
  intro hd
  have := head_firstDedup l
  rw [hd] at this
  cases l with
  | nil => exact h rfl
  | cons a t => simp at this

theorem prevsOf_ne_nil (rs : List record) (x : String)
    (h : hasPrevRecord rs x = true) : prevsOf rs x ≠ [] := by
  simp only [hasPrevRecord, List.any_eq_true] at h
  obtain ⟨r, hr, hcond⟩ := h
  have : r.previous ∈ prevsOf rs x := by
    unfold prevsOf
    exact List.mem_map_of_mem _ (List.mem_filter.mpr ⟨hr, hcond⟩)
  exact List.ne_nil_of_mem this

/-- On an upward-bounded graph, every registered fingerprint is reachable
from a root of the incoming view. -/
theorem grounded (rs : List record) :
    ∀ (d : Nat) (x : String),
      UpBndB (adjacencyLists none rs).incoming d x = true →
      (alFind (adjacencyLists none rs).incoming x).isSome →
      ∃ root, alFind (adjacencyLists none rs).incoming root = some none ∧
        Reach (adjacencyLists none rs).outgoing root x := by
  intro d
  induction d with
  | zero =>
    intro x hup hsome
    have hcond : (isSubjectOf rs x || isPrevOf rs x) = true :=
      (mem_keys_inc_iff rs x).mp ((mem_alKeys_iff_isSome _ x).mpr hsome)
    have hnil : incList (adjacencyLists none rs).incoming x = [] := by
      rw [UpBndB] at hup
      exact beq_iff_eq.mp hup
    have hhp : hasPrevRecord rs x = false := by
      cases hh : hasPrevRecord rs x
      · rfl
      · exfalso
        rw [incList_adj, hh, if_pos rfl] at hnil
        exact firstDedup_ne_nil _ (prevsOf_ne_nil rs x hh) hnil
    exact ⟨x, (inc_eq_some_none_iff rs x).mpr ⟨hcond, hhp⟩, Reach.refl x⟩
  | succ d ih =>
    intro x hup hsome
    have hcond : (isSubjectOf rs x || isPrevOf rs x) = true :=
      (mem_keys_inc_iff rs x).mp ((mem_alKeys_iff_isSome _ x).mpr hsome)
    cases hh : hasPrevRecord rs x with
    | false =>
      exact ⟨x, (inc_eq_some_none_iff rs x).mpr ⟨hcond, hh⟩, Reach.refl x⟩
    | true =>
      have hlist : incList (adjacencyLists none rs).incoming x =
          firstDedup (prevsOf rs x) := by
        rw [incList_adj, hh, if_pos rfl]
      have hne : incList (adjacencyLists none rs).incoming x ≠ [] := by
        rw [hlist]
        exact firstDedup_ne_nil _ (prevsOf_ne_nil rs x hh)
      obtain ⟨p, hp⟩ := List.exists_mem_of_ne_nil _ hne
      have hupp : UpBndB (adjacencyLists none rs).incoming d p = true := by
        rw [UpBndB] at hup
        exact List.all_eq_true.mp hup p hp
      obtain ⟨r, hr, hsub, hprev, hpne⟩ := (mem_incList_iff rs x p).mp hp
      have hpsome : (alFind (adjacencyLists none rs).incoming p).isSome := by
        rw [← mem_alKeys_iff_isSome, mem_keys_inc_iff]
        have : isPrevOf rs p = true := by
          simp only [isPrevOf, List.any_eq_true]
          exact ⟨r, hr, by rw [hprev]; simp [hpne]⟩
        simp [this]
      obtain ⟨root, hr1, hr2⟩ := ih p hupp hpsome
      have hchild : x ∈ childList (adjacencyLists none rs).outgoing p :=
        (mem_childList_iff rs p x).mpr ⟨r, hr, hsub, hprev, hpne⟩
      exact ⟨root, hr1, Reach_extend _ hr2 hchild⟩

theorem fold_isSome_mono (out : List (String × Option (List String))) (F : Nat) :
    ∀ (entries : List (String × Option (List String)))
      (result : List (String × String)) (x : String),
      (alFind result x).isSome →
      (alFind (entries.foldl (canonStep out F) result) x).isSome := by
  intro entries
  induction entries with
  | nil => intro result x hx; exact hx
  | cons e rest ih =>
    intro result x hx
    simp only [List.foldl_cons]
    refine ih _ x ?_
    unfold canonStep
    cases e.2 with
    | some v => exact hx
    | none => exact traverse_isSome_mono out F e.1 [] [e.1] result x hx

/-- Once the root loop processes the entry of a bounded root, everything
reachable from that root has been assigned. -/
theorem fold_reach_isSome (out : List (String × Option (List String))) (F : Nat)
    (K : Nat) :
    ∀ (entries : List (String × Option (List String)))
      (result : List (String × String)) (root x : String),
      (root, none) ∈ entries →
      Reach out root x →
      BndB out K root = true →
      stepBound out K root ≤ F →
      (alFind (entries.foldl (canonStep out F) result) x).isSome := by
  intro entries
  induction entries with
  | nil =>
    intro result root x hmem
    cases hmem
  | cons e rest ih =>
    intro result root x hmem hreach hB hfuel
    simp only [List.foldl_cons]
    rcases List.mem_cons.mp hmem with heq | hmem'
    · have hstep : (alFind (canonStep out F result e) x).isSome := by
        unfold canonStep
        rw [← heq]
        exact canonLoop_reach_isSome out F K [] root [] [root] result rfl hB
          List.Forall₂.nil (by simpa using hfuel) x (Or.inl hreach)
      exact fold_isSome_mono out F rest _ x hstep
    · exact ih _ root x hmem' hreach hB hfuel

/-- Totality of canonical-ID resolution for acyclic graphs: every registered
fingerprint gets an entry. -/
theorem mapCanonical_total (records : List record)
    (hb : ∀ f ∈ alKeys (adjacencyLists none records).outgoing,
        BndB (adjacencyLists none records).outgoing
          (alKeys (adjacencyLists none records).outgoing).length f = true)
    (hu : ∀ f ∈ alKeys (adjacencyLists none records).incoming,
        UpBndB (adjacencyLists none records).incoming
          (alKeys (adjacencyLists none records).incoming).length f = true)
    (x : String)
    (hx : (alFind (adjacencyLists none records).incoming x).isSome) :
    (alFind (mapCanonicalIDs (adjacencyLists none records)) x).isSome := by
  obtain ⟨root, hr, hreach⟩ := grounded records
    (alKeys (adjacencyLists none records).incoming).length x
    (hu x ((mem_alKeys_iff_isSome _ x).mpr hx)) hx
  have hrootkey : root ∈ alKeys (adjacencyLists none records).outgoing := by
    rw [mem_keys_out_iff]
    rw [← mem_keys_inc_iff]
    exact (mem_alKeys_iff_isSome _ root).mpr (by rw [hr]; rfl)
  unfold mapCanonicalIDs
  exact fold_reach_isSome (adjacencyLists none records).outgoing
    (canonFuel (adjacencyLists none records).outgoing)
    (alKeys (adjacencyLists none records).outgoing).length
    (adjacencyLists none records).incoming [] root x
    (alFind_mem _ _ _ hr) hreach (hb root hrootkey)
    (stepBound_le_canonFuel _ root)


/-- Claim C3 fails on the code: in the two-record predecessor cycle
`A <-> B` the fingerprint `A` occurs as a subject but the canonical-ID map
is empty, so the mapping is not total. -/
theorem claim_C3_cex :
    (∃ r ∈ c3recs, r.subject = "A") ∧
      alFind (mapCanonicalIDs (adjacencyLists none c3recs)) "A" = none := by
  decide

/-- Claim C3 (amended): provided the lineage graph is acyclic — expressed as
a uniform successor- and predecessor-depth bound by the key count, which for
these finite graphs is exactly acyclicity — every fingerprint occurring as a
subject appears as a key of the canonical-ID map. -/
theorem claim_C3 (records : List record)
    (hb : ∀ f ∈ alKeys (adjacencyLists none records).outgoing,
        BndB (adjacencyLists none records).outgoing
          (alKeys (adjacencyLists none records).outgoing).length f = true)
    (hu : ∀ f ∈ alKeys (adjacencyLists none records).incoming,
        UpBndB (adjacencyLists none records).incoming
          (alKeys (adjacencyLists none records).incoming).length f = true)
    (f : String) (hf : ∃ r ∈ records, r.subject = f) :
    (alFind (mapCanonicalIDs (adjacencyLists none records)) f).isSome := by
  refine mapCanonical_total records hb hu f ?_
  rw [← mem_alKeys_iff_isSome, mem_keys_inc_iff]
  obtain ⟨r, hr, hs⟩ := hf
  have : isSubjectOf records f = true := by
    simp only [isSubjectOf, List.any_eq_true]
    exact ⟨r, hr, by simp [hs]⟩
  simp [this]


/-- Witness for the amended claim C3 on a small acyclic graph. -/
theorem claim_C3_witness :
    (alFind (mapCanonicalIDs (adjacencyLists none c3wrecs)) "C").isSome :=
  claim_C3 c3wrecs (by decide) (by decide) "C"
    ⟨⟨"C", "A", "op", 2⟩, by decide, rfl⟩

/-! ### The branch rule on forests -/

theorem mem_of_head_opt {α : Type} {l : List α} {a : α} (h : l.head? = some a) :
    a ∈ l := by
  cases l with
  | nil => cases h
  | cons x t =>
    have : x = a := by simpa using h
    rw [this]
    exact List.mem_cons_self a t

theorem eq_singleton_of_mem_of_length_le_one {α : Type} (a : α) (l : List α)
    (ha : a ∈ l) (hl : l.length ≤ 1) : l = [a] := by
  cases l with
  | nil => cases ha
  | cons x t =>
    cases t with
    | nil =>
      rcases List.mem_cons.mp ha with rfl | h
      · rfl
      · cases h
    | cons y u => simp at hl

theorem specID_stable (inc out : List (String × Option (List String))) :
    ∀ (d : Nat) (x : String), UpBndB inc d x = true → ∀ e, d ≤ e →
      specID inc out e x = specID inc out d x := by
  intro d
  induction d with
  | zero =>
    intro x hup e _
    have hnil : incList inc x = [] := by
      rw [UpBndB] at hup
      exact beq_iff_eq.mp hup
    cases e with
    | zero => rfl
    | succ e' => simp [specID, hnil]
  | succ d ih =>
    intro x hup e he
    cases e with
    | zero => omega
    | succ e' =>
      have he' : d ≤ e' := by omega
      cases hh : (incList inc x).head? with
      | none => simp [specID, hh]
      | some p =>
        have hpmem : p ∈ incList inc x := mem_of_head_opt hh
        have hupp : UpBndB inc d p = true := by
          rw [UpBndB] at hup
          exact List.all_eq_true.mp hup p hpmem
        have h1 : specID inc out e' p = specID inc out d p := ih p hupp e' he'
        by_cases hfc : (childList out p).head? = some x
        · simp [specID, hh, hfc, h1]
        · simp [specID, hh, hfc]

theorem childList_nodup (rs : List record) (w : String) :
    (childList (adjacencyLists none rs).outgoing w).Nodup := by
  rw [childList_adj]
  cases isPrevOf rs w
  · simp
  · simp only [if_true]
    exact nodup_firstDedup _

/-- On a forest, the stored parent of a child found in some outgoing list is
exactly that list's owner. -/
theorem parent_head (records : List record)
    (hforest : ∀ x ∈ alKeys (adjacencyLists none records).incoming,
        (incList (adjacencyLists none records).incoming x).length ≤ 1)
    (n c : String)
    (hc : c ∈ childList (adjacencyLists none records).outgoing n) :
    (incList (adjacencyLists none records).incoming c).head? = some n := by
  obtain ⟨r, hr, hs, hp, hne⟩ := (mem_childList_iff records n c).mp hc
  have hmem : n ∈ incList (adjacencyLists none records).incoming c :=
    (mem_incList_iff records c n).mpr ⟨r, hr, hs, hp, hne⟩
  have hckey : c ∈ alKeys (adjacencyLists none records).incoming := by
    rw [mem_keys_inc_iff]
    have : isSubjectOf records c = true := by
      simp only [isSubjectOf, List.any_eq_true]
      exact ⟨r, hr, by simp [hs]⟩
    simp [this]
  have hsing := eq_singleton_of_mem_of_length_le_one n _ hmem (hforest c hckey)
  rw [hsing]
  rfl

/-- A first child inherits its parent's stable canonical ID. -/
theorem SP_first (records : List record)
    (hforest : ∀ x ∈ alKeys (adjacencyLists none records).incoming,
        (incList (adjacencyLists none records).incoming x).length ≤ 1)
    (hu : ∀ f ∈ alKeys (adjacencyLists none records).incoming,
        UpBndB (adjacencyLists none records).incoming
          (alKeys (adjacencyLists none records).incoming).length f = true)
    (n c : String)
    (hc : (childList (adjacencyLists none records).outgoing n).head? = some c) :
    specID (adjacencyLists none records).incoming
        (adjacencyLists none records).outgoing
        ((alKeys (adjacencyLists none records).incoming).length + 1) c =
      specID (adjacencyLists none records).incoming
        (adjacencyLists none records).outgoing
        ((alKeys (adjacencyLists none records).incoming).length + 1) n := by
  have hcmem : c ∈ childList (adjacencyLists none records).outgoing n :=
    mem_of_head_opt hc
  have hparent := parent_head records hforest n c hcmem
  have h1 : specID (adjacencyLists none records).incoming
      (adjacencyLists none records).outgoing
      ((alKeys (adjacencyLists none records).incoming).length + 1) c =
      specID (adjacencyLists none records).incoming
        (adjacencyLists none records).outgoing
        (alKeys (adjacencyLists none records).incoming).length n := by
    simp [specID, hparent, hc]
  rw [h1]
  have hnkey : n ∈ alKeys (adjacencyLists none records).incoming := by
    obtain ⟨r, hr, hs, hp, hne⟩ := (mem_childList_iff records n c).mp hcmem
    rw [mem_keys_inc_iff]
    have : isPrevOf records n = true := by
      simp only [isPrevOf, List.any_eq_true]
      exact ⟨r, hr, by rw [hp]; simp [hne]⟩
    simp [this]
  exact (specID_stable _ _ _ n (hu n hnkey) _ (by omega)).symm

/-- A later child restarts from its own fingerprint. -/
theorem SP_later (records : List record)
    (hforest : ∀ x ∈ alKeys (adjacencyLists none records).incoming,
        (incList (adjacencyLists none records).incoming x).length ≤ 1)
    (n c : String)
    (hc : c ∈ childList (adjacencyLists none records).outgoing n)
    (hne : (childList (adjacencyLists none records).outgoing n).head? ≠ some c) :
    specID (adjacencyLists none records).incoming
        (adjacencyLists none records).outgoing
        ((alKeys (adjacencyLists none records).incoming).length + 1) c = c := by
  have hparent := parent_head records hforest n c hc
  simp [specID, hparent, hne]

theorem forall2_self_pairs {P : String → String → Prop} (l : List String)
    (h : ∀ m ∈ l, P m m) : List.Forall₂ P l l := by
  induction l with
  | nil => exact List.Forall₂.nil
  | cons a t ih =>
    exact List.Forall₂.cons (h a (List.mem_cons_self a t))
      (ih fun m hm => h m (List.mem_cons_of_mem _ hm))

theorem alFind_alSet_cases {α : Type} (m : List (String × α)) (k x : String)
    (w v : α) (h : alFind (alSet m k w) x = some v) :
    (x = k ∧ v = w) ∨ alFind m x = some v := by
  by_cases hk : k = x
  · subst hk
    rw [alFind_alSet_self] at h
    exact Or.inl ⟨rfl, by injection h with h'; exact h'.symm⟩
  · rw [alFind_alSet_ne _ _ _ _ hk] at h
    exact Or.inr h

/-- Value tracking: whenever the stack pairs every node with its stable
canonical ID, every assignment the worklist makes agrees with the branch
rule's canonical ID. -/
theorem canonLoop_values (out : List (String × Option (List String)))
    (SP : String → String)
    (hfirst : ∀ n c, (childList out n).head? = some c → SP c = SP n)
    (hlater : ∀ n c, c ∈ childList out n →
        (childList out n).head? ≠ some c → SP c = c)
    (hnodup : ∀ n, (childList out n).Nodup) :
    ∀ fuel (n : String) (nodes ids : List String) (result : List (String × String)),
      List.Forall₂ (fun m v => v = SP m) (n :: nodes) ids →
      (∀ x v, alFind result x = some v → v = SP x) →
      ∀ x v, alFind (canonLoop out fuel n nodes ids result) x = some v → v = SP x := by
  intro fuel
  induction fuel with
  | zero => intro n nodes ids result _ hres x v h; exact hres x v h
  | succ f ih =>
    intro n nodes ids result hF2 hres x v h
    rcases List.forall₂_cons_left_iff.mp hF2 with ⟨id, ids', hid, hrest, rfl⟩
    have hres' : ∀ y w, alFind (alSet result n id) y = some w → w = SP y := by
      intro y w hw
      rcases alFind_alSet_cases result n y id w hw with ⟨rfl, rfl⟩ | hw'
      · exact hid
      · exact hres y w hw'
    cases hcs : childList out n with
    | nil =>
      rw [traverse_step_nil_children out f n nodes result id ids' hcs] at h
      cases nodes with
      | nil => exact hres' x v h
      | cons n'' rest =>
        exact ih n'' rest ids' (alSet result n id) hrest hres' x v h
    | cons c0 crest =>
      cases hcsr : (c0 :: crest).reverse with
      | nil =>
        exfalso
        have := congrArg List.length hcsr
        simp at this
      | cons n₂ t =>
        have hrev : (c0 :: crest).reverse ++ nodes = n₂ :: (t ++ nodes) := by
          rw [hcsr]
          simp
        rw [traverse_step_cons out f n nodes result id ids' c0 crest n₂
          (t ++ nodes) hcs hrev] at h
        have hfc : (childList out n).head? = some c0 := by
          rw [hcs]
          rfl
        have hid' : id = SP c0 := by
          rw [hfirst n c0 hfc]
          exact hid
        have hcrest : ∀ m ∈ crest.reverse, SP m = m := by
          intro m hm
          rw [List.mem_reverse] at hm
          have hmcs : m ∈ childList out n := by
            rw [hcs]
            exact List.mem_cons_of_mem _ hm
          have hnodup' := hnodup n
          rw [hcs] at hnodup'
          have hmne : m ≠ c0 := by
            intro hmc
            rw [hmc] at hm
            exact (List.nodup_cons.mp hnodup').1 hm
          refine hlater n m hmcs ?_
          rw [hfc]
          intro hcon
          exact hmne (by injection hcon with h'; exact h'.symm)
        have hpair : List.Forall₂ (fun m v => v = SP m)
            (crest.reverse ++ c0 :: nodes) (crest.reverse ++ id :: ids') :=
          forall2_append_nat_str
            (forall2_self_pairs crest.reverse fun m hm => (hcrest m hm).symm)
            (List.Forall₂.cons hid' hrest)
        have hshape : crest.reverse ++ c0 :: nodes = n₂ :: (t ++ nodes) := by
          have h1 : crest.reverse ++ [c0] = n₂ :: t := by
            rw [← List.reverse_cons]
            exact hcsr
          calc crest.reverse ++ c0 :: nodes
              = (crest.reverse ++ [c0]) ++ nodes := by simp
            _ = (n₂ :: t) ++ nodes := by rw [h1]
            _ = n₂ :: (t ++ nodes) := rfl
        rw [hshape] at hpair
        exact ih n₂ (t ++ nodes) (crest.reverse ++ id :: ids') (alSet result n id)
          hpair hres' x v h

/-- Value tracking lifted over the root loop. -/
theorem fold_values (out : List (String × Option (List String))) (F : Nat)
    (SP : String → String)
    (hfirst : ∀ n c, (childList out n).head? = some c → SP c = SP n)
    (hlater : ∀ n c, c ∈ childList out n →
        (childList out n).head? ≠ some c → SP c = c)
    (hnodup : ∀ n, (childList out n).Nodup) :
    ∀ (entries : List (String × Option (List String)))
      (result : List (String × String)),
      (∀ q ∈ entries, q.2 = none → SP q.1 = q.1) →
      (∀ x v, alFind result x = some v → v = SP x) →
      ∀ x v, alFind (entries.foldl (canonStep out F) result) x = some v →
        v = SP x := by
  intro entries
  induction entries with
  | nil => intro result _ hres x v h; exact hres x v h
  | cons e rest ih =>
    intro result hroots hres x v h
    simp only [List.foldl_cons] at h
    refine ih _ (fun q hq => hroots q (List.mem_cons_of_mem _ hq)) ?_ x v h
    intro y w hw
    unfold canonStep at hw
    cases he : e.2 with
    | some s =>
      rw [he] at hw
      exact hres y w hw
    | none =>
      rw [he] at hw
      have hroot : SP e.1 = e.1 := hroots e (List.mem_cons_self _ _) he
      exact canonLoop_values out SP hfirst hlater hnodup F e.1 [] [e.1] result
        (List.Forall₂.cons hroot.symm List.Forall₂.nil) hres y w hw

/-- Every entry of the canonical-ID map of a forest carries the branch
rule's canonical ID. -/
theorem mapCanonical_values (records : List record)
    (hforest : ∀ x ∈ alKeys (adjacencyLists none records).incoming,
        (incList (adjacencyLists none records).incoming x).length ≤ 1)
    (hu : ∀ f ∈ alKeys (adjacencyLists none records).incoming,
        UpBndB (adjacencyLists none records).incoming
          (alKeys (adjacencyLists none records).incoming).length f = true) :
    ∀ x v, alFind (mapCanonicalIDs (adjacencyLists none records)) x = some v →
      v = specID (adjacencyLists none records).incoming
        (adjacencyLists none records).outgoing
        ((alKeys (adjacencyLists none records).incoming).length + 1) x := by
  unfold mapCanonicalIDs
  refine fold_values (adjacencyLists none records).outgoing
    (canonFuel (adjacencyLists none records).outgoing) _
    (SP_first records hforest hu) (SP_later records hforest)
    (childList_nodup records) (adjacencyLists none records).incoming [] ?_ ?_
  · intro q hq hq2
    have hmem : (q.1, (none : Option (List String))) ∈
        (adjacencyLists none records).incoming := by
      rw [← hq2]
      exact hq
    have hfind : alFind (adjacencyLists none records).incoming q.1 = some none :=
      alFind_of_nodup_mem _ _ _ (nodup_keys_adjacencyLists none records).1 hmem
    have hnil : incList (adjacencyLists none records).incoming q.1 = [] := by
      unfold incList
      rw [hfind]
    simp [specID, hnil]
  · intro x v h
    simp [alFind] at h


/-- Claim C4 fails on the code: `X` gains the edge to `Y` first and to `Z`
second, yet `Z`'s canonical ID is `W` (inherited from the second root
traversal through `Z`'s other predecessor `W`), not `Z` itself. -/
theorem claim_C4_cex :
    ((c4recs.filter (fun r => r.previous == "X")).map (fun r => r.subject) =
        ["Y", "Z"]) ∧
      alFind (mapCanonicalIDs (adjacencyLists none c4recs)) "Z" = some "W" ∧
      alFind (mapCanonicalIDs (adjacencyLists none c4recs)) "Z" ≠ some "Z" := by
  decide

/-- Claim C4 (amended): on a forest-shaped acyclic lineage graph (each
fingerprint has at most one stored predecessor; depth bounded by the key
count in both directions), if `Y` is the first recorded successor of `X`
and `Z` a later recorded successor distinct from `Y`, then `Y`'s canonical
ID equals `X`'s and `Z`'s canonical ID is `Z` itself. -/
theorem claim_C4 (records : List record) (X Y Z : String)
    (hforest : ∀ x ∈ alKeys (adjacencyLists none records).incoming,
        (incList (adjacencyLists none records).incoming x).length ≤ 1)
    (hb : ∀ f ∈ alKeys (adjacencyLists none records).outgoing,
        BndB (adjacencyLists none records).outgoing
          (alKeys (adjacencyLists none records).outgoing).length f = true)
    (hu : ∀ f ∈ alKeys (adjacencyLists none records).incoming,
        UpBndB (adjacencyLists none records).incoming
          (alKeys (adjacencyLists none records).incoming).length f = true)
    (hXne : X ≠ "")
    (hY : ((records.filter (fun r => r.previous == X)).map
        (fun r => r.subject)).head? = some Y)
    (hZ : Z ∈ (records.filter (fun r => r.previous == X)).map (fun r => r.subject))
    (hZY : Z ≠ Y) :
    ∃ idX, alFind (mapCanonicalIDs (adjacencyLists none records)) X = some idX ∧
      alFind (mapCanonicalIDs (adjacencyLists none records)) Y = some idX ∧
      alFind (mapCanonicalIDs (adjacencyLists none records)) Z = some Z := by
  have hchildEq : childSubjects records X =
      (records.filter (fun r => r.previous == X)).map (fun r => r.subject) := rfl
  have hprevX : isPrevOf records X = true := by
    have hne : (records.filter (fun r => r.previous == X)).map
        (fun r => r.subject) ≠ [] := by
      intro hcon
      rw [hcon] at hY
      cases hY
    obtain ⟨c, hc⟩ := List.exists_mem_of_ne_nil _ hne
    simp only [List.mem_map, List.mem_filter, beq_iff_eq] at hc
    obtain ⟨r, ⟨hr, hp⟩, -⟩ := hc
    simp only [isPrevOf, List.any_eq_true]
    exact ⟨r, hr, by rw [hp]; simp [hXne]⟩
  have hcl : childList (adjacencyLists none records).outgoing X =
      firstDedup (childSubjects records X) := by
    rw [childList_adj, hprevX, if_pos rfl]
  have hheadY : (childList (adjacencyLists none records).outgoing X).head? =
      some Y := by
    rw [hcl, head_firstDedup, hchildEq]
    exact hY
  have hZmem : Z ∈ childList (adjacencyLists none records).outgoing X := by
    rw [hcl, mem_firstDedup, hchildEq]
    exact hZ
  have hYmem : Y ∈ childList (adjacencyLists none records).outgoing X :=
    mem_of_head_opt hheadY
  have hXkey : (alFind (adjacencyLists none records).incoming X).isSome := by
    rw [← mem_alKeys_iff_isSome, mem_keys_inc_iff]
    simp [hprevX]
  have hsubj_key : ∀ c, c ∈ childList (adjacencyLists none records).outgoing X →
      (alFind (adjacencyLists none records).incoming c).isSome := by
    intro c hc
    obtain ⟨r, hr, hs, -, -⟩ := (mem_childList_iff records X c).mp hc
    rw [← mem_alKeys_iff_isSome, mem_keys_inc_iff]
    have : isSubjectOf records c = true := by
      simp only [isSubjectOf, List.any_eq_true]
      exact ⟨r, hr, by simp [hs]⟩
    simp [this]
  obtain ⟨idX, hidX⟩ := Option.isSome_iff_exists.mp
    (mapCanonical_total records hb hu X hXkey)
  obtain ⟨idY, hidY⟩ := Option.isSome_iff_exists.mp
    (mapCanonical_total records hb hu Y (hsubj_key Y hYmem))
  obtain ⟨idZ, hidZ⟩ := Option.isSome_iff_exists.mp
    (mapCanonical_total records hb hu Z (hsubj_key Z hZmem))
  have hvX := mapCanonical_values records hforest hu X idX hidX
  have hvY := mapCanonical_values records hforest hu Y idY hidY
  have hvZ := mapCanonical_values records hforest hu Z idZ hidZ
  have hYX : idY = idX := by
    rw [hvY, hvX]
    exact SP_first records hforest hu X Y hheadY
  have hZZ : idZ = Z := by
    rw [hvZ]
    refine SP_later records hforest X Z hZmem ?_
    rw [hheadY]
    intro hcon
    exact hZY (by injection hcon with h'; exact h'.symm)
  refine ⟨idX, hidX, ?_, ?_⟩
  · rw [hidY, hYX]
  · rw [hidZ, hZZ]


/-- Witness for the amended claim C4: `X -> Y` first, `X -> Z` second on a
three-record forest; `Y` inherits `X`'s canonical ID and `Z` keeps its own. -/
theorem claim_C4_witness :
    ∃ idX, alFind (mapCanonicalIDs (adjacencyLists none c4wrecs)) "X" = some idX ∧
      alFind (mapCanonicalIDs (adjacencyLists none c4wrecs)) "Y" = some idX ∧
      alFind (mapCanonicalIDs (adjacencyLists none c4wrecs)) "Z" = some "Z" :=
  claim_C4 c4wrecs "X" "Y" "Z" (by decide) (by decide) (by decide) (by decide)
    (by decide) (by decide) (by decide)

/-! ### Replication of the repository tests -/

/-- `TestCountingClients`: 6 distinct clients on the test graph. -/
theorem erfserver_test_total_clients : TotalClients sampleRecords = 6 := by
  decide

/-- `TestCountingClientsSince`: 3 clients active since `time2`. -/
theorem erfserver_test_recent_clients : RecentClients 2 sampleRecords = 3 := by
  decide

/-- `TestCountOperations`: the per-client operation counts of the test graph. -/
theorem erfserver_test_operations :
    totalFor (OperationsByClient sampleRecords) "A" = 9 ∧
    totalFor (OperationsByClient sampleRecords) "E" = 1 ∧
    totalFor (OperationsByClient sampleRecords) "F" = 3 ∧
    totalFor (OperationsByClient sampleRecords) "M" = 1 ∧
    totalFor (OperationsByClient sampleRecords) "?" = 1 ∧
    totalFor (OperationsByClient sampleRecords) "J" = 2 := by
  decide
